import Mathlib

/-!
# Verification of the `nucleic-acid` full-text index library

Shallow embedding of the library's three subsystems and proofs about them:

* `BitsVec` — the bit-packed integer vector (`src/rust-fillings/src/lib.rs`),
* the SA-IS suffix-array builder (`src/sa.rs`),
* the BWT codec and FM-index (`src/bwt.rs`).

Modelling conventions:

* The machine word is `usize` on a 64-bit target, so the word width `W` is 64.
* Machine integers are modelled as `Nat`.  Shifts follow Rust release-mode
  semantics (shift amount masked by the word width, left-shift results
  truncated to 64 bits); subtraction that can underflow is modelled with
  explicit wrap-around (`wsub`).  On the executions relevant to the theorems
  below, debug-mode Rust would panic at or before every point where these
  wrapped operations actually wrap, and in every such case the model ends in
  `none` as well.
* A Rust `panic!` / failed `assert!` / out-of-bounds index is modelled by the
  operation returning `none`; `Option.bind` propagates it.  A diverging loop
  (possible only on states unreachable from the public API) is also mapped to
  `none` via fuel exhaustion.
-/

namespace Helix

/-- Machine word width in bits (`usize::MAX.count_ones()` on a 64-bit target). -/
def W : Nat := 64

/-- Rust release-mode left shift on `usize`: the shift amount is masked by the
word width and the result is truncated to 64 bits. -/
def shl (a s : Nat) : Nat := (a <<< (s % 64)) % 2 ^ 64

/-- Rust release-mode right shift on `usize`: the shift amount is masked by the
word width. -/
def shr (a s : Nat) : Nat := a >>> (s % 64)

/-- Rust release-mode (wrapping) subtraction on `usize`. -/
def wsub (a b : Nat) : Nat := (a % 2 ^ 64 + 2 ^ 64 - b % 2 ^ 64) % 2 ^ 64

/-- Bitwise complement on `usize` (`!x` in Rust). -/
def notW (x : Nat) : Nat := 2 ^ 64 - 1 - x % 2 ^ 64

/-- Bounds-checked list update: Rust's `v[i] = x` (panics when out of range). -/
def setc (l : List Nat) (i x : Nat) : Option (List Nat) :=
  if i < l.length then some (l.set i x) else none

/-!
## PackedVec (`BitsVec<T>`, `src/rust-fillings/src/lib.rs`)

The element type parameter `T: ReprUsize` is erased: every stored value is its
`usize` representation (`into_usize`/`from_usize` are the identity for the
integer instantiations the library uses, and `SuffixType` is represented by its
discriminant 0/1/2).  The `inner: Vec<usize>` backing store is a `List Nat` of
words, each `< 2^64`.
-/

structure BitsVec where
  inner : List Nat
  units : Nat
  bits : Nat
  leftover : Nat
  deriving Repr, DecidableEq

namespace BitsVec

/-- `BitsVec::new` (lib.rs:135-148).  The only check is `assert!(bits < max)`
where `max = 64`; there is no lower bound on `bits`. -/
def new (bits : Nat) : Option BitsVec :=
  if bits < W then
    some { inner := [0], units := 0, bits := bits, leftover := W }
  else
    none

/-- `BitsVec::push` (lib.rs:159-182). -/
@[noinline] def push (bv : BitsVec) (value : Nat) : Option BitsVec :=
  if shr value bv.bits ≠ 0 then none
  else
    let idx := bv.inner.length - 1
    if bv.leftover < bv.bits then
      let left := bv.bits - bv.leftover
      match bv.inner[idx]? with
      | none => none
      | some w =>
        let inner := bv.inner.set idx (w ||| shr value left)
        let value := if bv.leftover ≠ 0 then value &&& (shl 1 left - 1) else value
        let inner := inner ++ [0]
        let leftover := W - left
        let idx := idx + 1
        match inner[idx]? with
        | none => none
        | some w2 =>
          some { inner := inner.set idx (w2 ||| shl value leftover),
                 units := bv.units + 1, bits := bv.bits, leftover := leftover }
    else
      let leftover := bv.leftover - bv.bits
      match bv.inner[idx]? with
      | none => none
      | some w =>
        some { inner := bv.inner.set idx (w ||| shl value leftover),
               units := bv.units + 1, bits := bv.bits, leftover := leftover }

/-- `BitsVec::get` (lib.rs:186-205). -/
@[noinline] def get (bv : BitsVec) (i : Nat) : Option Nat :=
  if i < bv.units then
    let pos := i * bv.bits
    let idx := pos / W
    let bits := pos % W
    let diff := W - bits
    match bv.inner[idx]? with
    | none => none
    | some w =>
      let val := if bits ≠ 0 then w &&& (shl 1 diff - 1) else w
      if diff ≥ bv.bits then some (shr val (diff - bv.bits))
      else
        let shift := bv.bits - diff
        match bv.inner[idx + 1]? with
        | none => none
        | some w2 => some (shl val shift ||| shr w2 (W - shift))
  else none

/-- `BitsVec::checked_get` (lib.rs:208-214). -/
def checked_get (bv : BitsVec) (i : Nat) : Option (Option Nat) :=
  if i ≥ bv.units then some none else (bv.get i).map some

/-- `BitsVec::set` (lib.rs:218-246). -/
@[noinline] def set (bv : BitsVec) (i value : Nat) : Option BitsVec :=
  if i ≥ bv.units then none
  else if shr value bv.bits ≠ 0 then none
  else
    let pos := i * bv.bits
    let idx := pos / W
    let bits := pos % W
    let diff := W - bits
    match bv.inner[idx]? with
    | none => none
    | some w =>
      if diff ≥ bv.bits then
        let shift := diff - bv.bits
        let last := w &&& (shl 1 shift - 1)
        let mask := if bits = 0 then 0 else shl (shl 1 bits - 1) diff
        let val := (w &&& mask) ||| shl value shift
        (setc bv.inner idx (val ||| last)).map fun inner => { bv with inner := inner }
      else
        let shift := bv.bits - diff
        let val := w &&& notW (shl 1 diff - 1)
        match setc bv.inner idx (val ||| shr value shift) with
        | none => none
        | some inner1 =>
          let last := value &&& (shl 1 shift - 1)
          let shift2 := W - shift
          match inner1[idx + 1]? with
          | none => none
          | some w2 =>
            (setc inner1 (idx + 1) ((w2 &&& (shl 1 shift2 - 1)) ||| shl last shift2)).map
              fun inner => { bv with inner := inner }

/-- `BitsVec::len` (lib.rs:262-264). -/
def len (bv : BitsVec) : Nat := bv.units

/-- `BitsVec::is_empty` (lib.rs:267-269). -/
def is_empty (bv : BitsVec) : Bool := bv.units == 0

/-- `BitsVec::truncate` (lib.rs:284-303).  `Vec::truncate` on the backing store
is `List.take` (a no-op when the requested length is not smaller). -/
@[noinline] def truncate (bv : BitsVec) (length : Nat) : Option BitsVec :=
  if length ≥ bv.units then none
  else
    let bits := length * bv.bits
    let new_len := bits / W
    let used := bits % W
    let new_len := if used > 0 then new_len + 1 else new_len
    let inner := bv.inner.take new_len
    if used > 0 then
      let leftover := W - used
      match inner[new_len - 1]? with
      | none => none
      | some w =>
        some { inner := inner.set (new_len - 1) (w &&& shl (shl 1 used - 1) leftover),
               units := length, bits := bv.bits, leftover := leftover }
    else
      some { inner := inner ++ [0], units := length, bits := bv.bits, leftover := W }

/-- `BitsVec::clear` (lib.rs:306-308). -/
def clear (bv : BitsVec) : Option BitsVec := bv.truncate 0

/-- Phase 1 of `extend_with_element` (lib.rs:344-351): push value by value until
the state is word-aligned, returning early when the requested count is reached.
`Sum.inl` is the early `return`, `Sum.inr` carries the state and the remaining
count when the loop exits via `leftover = 0`.  Recursion is on `remain`. -/
@[noinline] def extendLoop1 (value : Nat) : Nat → BitsVec → Option (BitsVec ⊕ (BitsVec × Nat))
  | 0, bv => some (Sum.inr (bv, 0))
  | r + 1, bv =>
    if bv.leftover > 0 then
      match bv.push value with
      | none => none
      | some bv' => if r = 0 then some (Sum.inl bv') else extendLoop1 value r bv'
    else some (Sum.inr (bv, r + 1))

/-- Phase 2 of `extend_with_element` (lib.rs:354-359): fill a fresh vector until
it is word-aligned.  The source loop terminates for every positive width within
64 iterations; fuel exhaustion models divergence (which Rust would exhibit on
the same states) as `none`. -/
@[noinline] def extendLoop2 (value : Nat) : Nat → Nat → BitsVec → Option BitsVec
  | 0, _, _ => none
  | f + 1, remain, temp =>
    if temp.leftover > 0 ∧ remain > 0 then
      match temp.push value with
      | none => none
      | some temp' => extendLoop2 value f remain temp'
    else some temp

/-- Phase 3 of `extend_with_element` (lib.rs:368-372): append whole word blocks
while at least `temp.units` elements remain. -/
@[noinline] def extendLoop3 : Nat → BitsVec → BitsVec → Nat → Option (BitsVec × Nat)
  | 0, _, _, _ => none
  | f + 1, bv, temp, remain =>
    if remain ≥ temp.units then
      extendLoop3 f
        { inner := bv.inner ++ temp.inner, units := bv.units + temp.units,
          bits := bv.bits, leftover := bv.leftover }
        temp (remain - temp.units)
    else some (bv, remain)

/-- `BitsVec::extend_with_element` (lib.rs:338-377).  `reserve` calls only touch
capacity and are omitted. -/
@[noinline] def extend_with_element (bv : BitsVec) (length value : Nat) : Option BitsVec :=
  if ¬ length > bv.units then none
  else
    let remain := length - bv.units
    match extendLoop1 value remain bv with
    | none => none
    | some (Sum.inl done) => some done
    | some (Sum.inr (bv, remain)) =>
      match BitsVec.new bv.bits with
      | none => none
      | some temp0 =>
        match temp0.push value with
        | none => none
        | some temp1 =>
          match extendLoop2 value 100 remain temp1 with
          | none => none
          | some temp =>
            if remain = 0 then
              some { inner := bv.inner ++ temp.inner, units := bv.units + temp.units,
                     bits := bv.bits, leftover := bv.leftover }
            else
              match extendLoop3 (remain + 1) bv temp remain with
              | none => none
              | some (bv, remain) =>
                (List.range remain).foldlM (fun b _ => b.push value) bv

/-- `BitsVec::with_elements` (lib.rs:330-334). -/
@[noinline] def with_elements (bits length value : Nat) : Option BitsVec :=
  match BitsVec.new bits with
  | none => none
  | some vec => vec.extend_with_element length value

/-- `BitsVec::from_iter` (lib.rs:249-258), with the iterator given as a list. -/
@[noinline] def from_iter (bits : Nat) (l : List Nat) : Option BitsVec :=
  match BitsVec.new bits with
  | none => none
  | some vec => l.foldlM (fun acc x => acc.push x) vec

/-- `BitsVec::inner_len` (lib.rs:312-314). -/
def inner_len (bv : BitsVec) : Nat := bv.inner.length

/-- The contents of the vector as the list `[get 0, get 1, …, get (len-1)]`;
used to read a whole vector out (`IntoIter` collected). -/
@[noinline] def toList (bv : BitsVec) : Option (List Nat) :=
  (List.range bv.units).mapM (fun i => bv.get i)

end BitsVec

/-- The iterator state of `BitsVec::iter` (lib.rs:318-320, 403-435): the vector
together with the half-open index range `start..stop` that `Range<usize>`
tracks. -/
structure Iter where
  vec : BitsVec
  start : Nat
  stop : Nat

/-- `BitsVec::iter` (lib.rs:318-320): `Iter { vec: self, range: 0..self.units }`. -/
def BitsVec.iter (bv : BitsVec) : Iter := { vec := bv, start := 0, stop := bv.units }

/-- `Iterator::next` for `Iter` (lib.rs:417-427):
`self.range.next().map(|i| self.vec.get(i))`.  The outer `Option` is iterator
exhaustion; the inner one models the panic `get` could raise. -/
def Iter.next (it : Iter) : Option (Option Nat × Iter) :=
  if it.start < it.stop then
    some (it.vec.get it.start, { it with start := it.start + 1 })
  else none

/-- Driving an `Iter` to exhaustion, collecting every value `next` yields (the
inner `Option` of each yielded element is sequenced out: a panic in `get`
poisons the whole collection).  Fuel is the range size. -/
def Iter.collect : Nat → Iter → Option (List Nat)
  | 0, it => match it.next with
             | none => some []
             | some _ => none
  | f + 1, it =>
    match it.next with
    | none => some []
    | some (v, it') =>
      match v, Iter.collect f it' with
      | some x, some rest => some (x :: rest)
      | _, _ => none

end Helix

namespace Helix

/-!
## Suffix array by induced sorting (`src/sa.rs`)

`SuffixType` is stored in a 2-bit `BitsVec` through `ReprUsize`; the model uses
the discriminants directly.  All arithmetic is `usize`; the one subtraction
that can underflow on a reachable path (`length - 1` for `length = 0`) is
modelled with `wsub`, matching release-mode wrap-around (debug Rust panics at
the same point, and in the model the wrapped index makes the following
bounds-checked operation return `none` as well).
-/

/-- `SuffixType::Small as usize`. -/
def Small : Nat := 0
/-- `SuffixType::Large as usize`. -/
def Large : Nat := 1
/-- `SuffixType::LeftMostSmall as usize`. -/
def LeftMostSmall : Nat := 2

/-- `MARKER` (sa.rs:15): `u32::MAX as usize`. -/
def MARKER : Nat := 2 ^ 32 - 1

/-- `INPUT_LIMIT` (sa.rs:19). -/
def INPUT_LIMIT : Nat := 16777216

/-- `usize::count_ones`, on values below `2^64`. -/
def count_onesAux : Nat → Nat → Nat
  | 0, _ => 0
  | f + 1, n => if n = 0 then 0 else n % 2 + count_onesAux f (n / 2)

/-- `usize::count_ones`. -/
def count_ones (n : Nat) : Nat := count_onesAux 64 n

/-- `usize::next_power_of_two` helper. -/
def npotAux : Nat → Nat → Nat → Nat
  | 0, p, _ => p
  | f + 1, p, n => if p ≥ n then p else npotAux f (p * 2) n

/-- `usize::next_power_of_two` (returns 1 on input 0), on values below `2^63`. -/
def next_power_of_two (n : Nat) : Nat := npotAux 64 1 n

/-- `insert` (sa.rs:38-49): extend-on-demand counter increment on a
`BitsVec<usize>`; returns the updated vector and the new count. -/
@[noinline] def insert (vec : BitsVec) (value : Nat) : Option (BitsVec × Nat) := do
  let idx := value
  let vec ← if vec.len ≤ idx then vec.extend_with_element (idx + 1) 0 else some vec
  let old ← vec.get idx
  let vec ← vec.set idx (old + 1)
  some (vec, old + 1)

/-- The `SuffixArray` record (sa.rs:51-61). -/
structure SuffixArray where
  input : BitsVec
  type_map : BitsVec
  bucket_heads : BitsVec
  bucket_tails : BitsVec
  array : BitsVec
  marker : Nat
  temp_array : BitsVec
  deriving Repr, DecidableEq

/-- Classification loop of `SuffixArray::build` (sa.rs:82-97), iterating
`i = length-2, …, 0` in lockstep with the reversed input iterator.  State is
`(type_map, bucket_sizes, last_byte)`. -/
def buildClassify (input : List Nat) :
    List Nat → BitsVec × BitsVec × Nat → Option (BitsVec × BitsVec × Nat)
  | [], st => some st
  | i :: rest, (type_map, bucket_sizes, last_byte) => do
    let cur_byte ← input[i]?
    let prev_type ← type_map.get (i + 1)
    let (bucket_sizes, _) ← insert bucket_sizes cur_byte
    let type_map ←
      if cur_byte > last_byte ∨ (cur_byte = last_byte ∧ prev_type = Large) then do
        let type_map ←
          if prev_type = Small then type_map.set (i + 1) LeftMostSmall else some type_map
        type_map.set i Large
      else some type_map
    buildClassify input rest (type_map, bucket_sizes, cur_byte)

/-- Bucket head/tail fill loop of `SuffixArray::build` (sa.rs:115-124).
State is `(bucket_heads, bucket_tails, idx, j)`. -/
def buildBuckets (bytes : List Nat) (bucket_sizes : BitsVec) :
    List Nat → BitsVec × BitsVec × Nat × Nat → Option (BitsVec × BitsVec × Nat × Nat)
  | [], st => some st
  | i :: rest, (bucket_heads, bucket_tails, idx, j) => do
    let bucket_heads ← bucket_heads.set i idx
    let (idx, j) ← do
      match bytes[j]? with
      | none => none
      | some bj =>
        if i = bj then do
          let c ← bucket_sizes.get bj
          some (idx + c, j + 1)
        else some (idx, j)
    let bucket_tails ← bucket_tails.set i (idx - 1)
    buildBuckets bytes bucket_sizes rest (bucket_heads, bucket_tails, idx, j)

/-- Approximate-SA fill loop of `SuffixArray::build` (sa.rs:130-139).  State is
`(vec, bucket_tails)`. -/
def buildApprox (type_map : BitsVec) :
    List (Nat × Nat) → BitsVec × BitsVec → Option (BitsVec × BitsVec)
  | [], st => some st
  | (i, byte) :: rest, (vec, bucket_tails) => do
    let t ← type_map.get i
    if t ≠ LeftMostSmall then buildApprox type_map rest (vec, bucket_tails)
    else do
      let bucket_idx := byte
      let bucket_value ← bucket_tails.get bucket_idx
      let vec ← vec.set bucket_value i
      let bucket_tails ← bucket_tails.set bucket_idx (wsub bucket_value 1)
      buildApprox type_map rest (vec, bucket_tails)

/-- Step 1 of `SuffixArray::build` (sa.rs:68-97): S/L/LMS classification and
byte-frequency collection.  Returns `(type_map, bucket_sizes)`;
`input_bits` is recomputed by the caller. -/
def buildPhase1 (input : List Nat) (length : Nat) : Option (BitsVec × BitsVec) := do
  let type_map ← BitsVec.with_elements 2 (length + 1) Small
  let input_max := next_power_of_two length - 1
  let input_bits := count_ones input_max
  let bucket_sizes ← BitsVec.new input_bits
  let type_map ← type_map.set length LeftMostSmall
  let type_map ← type_map.set (wsub length 1) Large
  let last_byte ← (input.reverse)[0]?
  let (bucket_sizes, _) ← insert bucket_sizes last_byte
  let (type_map, bucket_sizes, _) ←
    buildClassify input (List.range (length - 1)).reverse (type_map, bucket_sizes, last_byte)
  some (type_map, bucket_sizes)

/-- Steps 2-3 of `SuffixArray::build` (sa.rs:99-154): bucket heads/tails and
the approximate suffix array. -/
def buildPhase2 (input : List Nat) (length input_bits : Nat) (type_map bucket_sizes : BitsVec) :
    Option SuffixArray := do
  let sizesList ← bucket_sizes.toList
  let bytes := (sizesList.enum.filterMap fun (i, c) => if c = 0 then none else some i)
  let max_byte ← bytes[wsub bytes.length 1]?
  let max_bits := count_ones (next_power_of_two max_byte - 1)
  let bucket_tails ← BitsVec.with_elements input_bits (max_byte + 1) 0
  let bucket_heads ← BitsVec.with_elements (input_bits + 1) (max_byte + 1) 0
  let (bucket_heads, bucket_tails, _, _) ←
    buildBuckets bytes bucket_sizes (List.range (max_byte + 1)) (bucket_heads, bucket_tails, 1, 0)
  let approx0 ← BitsVec.with_elements 32 (length + 1) MARKER
  let (approx1, _) ← buildApprox type_map input.enum (approx0, bucket_tails)
  let approx_sa ← approx1.set 0 length
  let inputVec ← BitsVec.from_iter max_bits input
  some { input := inputVec, type_map := type_map, bucket_heads := bucket_heads,
         bucket_tails := bucket_tails, array := approx_sa, marker := MARKER,
         temp_array := (BitsVec.new 1).getD ⟨[0], 0, 1, W⟩ }

/-- `SuffixArray::build` (sa.rs:65-154), with the input iterator given as a
list.  Both call sites pass `length = input.len()`. -/
def SuffixArray.build (input : List Nat) (length : Nat) : Option SuffixArray := do
  let (type_map, bucket_sizes) ← buildPhase1 input length
  buildPhase2 input length (count_ones (next_power_of_two length - 1)) type_map bucket_sizes

/-- Loop body shared shape of `induced_sort_large` (sa.rs:157-175).  State is
`(array, bucket_heads)`. -/
def sortLargeLoop (input type_map : BitsVec) (marker : Nat) :
    List Nat → BitsVec × BitsVec → Option (BitsVec × BitsVec)
  | [], st => some st
  | i :: rest, (array, bucket_heads) => do
    let byte ← array.get i
    if byte = marker ∨ byte = 0 then sortLargeLoop input type_map marker rest (array, bucket_heads)
    else do
      let j := byte - 1
      let t ← type_map.get j
      if t ≠ Large then sortLargeLoop input type_map marker rest (array, bucket_heads)
      else do
        let bucket_idx ← input.get j
        let bucket_value ← bucket_heads.get bucket_idx
        let array ← array.set bucket_value j
        let bucket_heads ← bucket_heads.set bucket_idx (bucket_value + 1)
        sortLargeLoop input type_map marker rest (array, bucket_heads)

/-- `SuffixArray::induced_sort_large` (sa.rs:157-175). -/
def SuffixArray.induced_sort_large (sa : SuffixArray) : Option SuffixArray := do
  let (array, _) ← sortLargeLoop sa.input sa.type_map sa.marker
    (List.range sa.array.len) (sa.array, sa.bucket_heads)
  some { sa with array := array }

/-- Loop of `induced_sort_small` (sa.rs:178-196).  State is `(array, bucket_tails)`. -/
def sortSmallLoop (input type_map : BitsVec) (marker : Nat) :
    List Nat → BitsVec × BitsVec → Option (BitsVec × BitsVec)
  | [], st => some st
  | i :: rest, (array, bucket_tails) => do
    let byte ← array.get i
    if byte = marker ∨ byte = 0 then sortSmallLoop input type_map marker rest (array, bucket_tails)
    else do
      let j := byte - 1
      let t ← type_map.get j
      if t = Large then sortSmallLoop input type_map marker rest (array, bucket_tails)
      else do
        let bucket_idx ← input.get j
        let bucket_value ← bucket_tails.get bucket_idx
        let array ← array.set bucket_value j
        let bucket_tails ← bucket_tails.set bucket_idx (wsub bucket_value 1)
        sortSmallLoop input type_map marker rest (array, bucket_tails)

/-- `SuffixArray::induced_sort_small` (sa.rs:178-196). -/
def SuffixArray.induced_sort_small (sa : SuffixArray) : Option SuffixArray := do
  let (array, _) ← sortSmallLoop sa.input sa.type_map sa.marker
    (List.range sa.array.len).reverse (sa.array, sa.bucket_tails)
  some { sa with array := array }

/-- Inner loop of `is_equal_lms` (sa.rs:205-213), preserving the source's
short-circuit order (the `input.get` calls run only when the classification
test fails to decide). -/
def isEqualLmsLoop (sa : SuffixArray) (j k : Nat) : Nat → Nat → Option Bool
  | 0, _ => some false
  | f + 1, i => do
    let tj ← sa.type_map.get (i + j)
    let tk ← sa.type_map.get (i + k)
    let first_lms := tj = LeftMostSmall
    let second_lms := tk = LeftMostSmall
    if first_lms ∧ second_lms ∧ i > 0 then some true
    else if first_lms ≠ second_lms then some false
    else do
      let bj ← sa.input.get (i + j)
      let bk ← sa.input.get (i + k)
      if bj ≠ bk then some false
      else isEqualLmsLoop sa j k f (i + 1)

/-- `SuffixArray::is_equal_lms` (sa.rs:199-216). -/
def SuffixArray.is_equal_lms (sa : SuffixArray) (j k : Nat) : Option Bool :=
  let length := sa.input.len
  if j = length ∨ k = length then some false
  else isEqualLmsLoop sa j k (length + 1) 0

/-- LMS-substring renaming loop of `prepare_for_stacking` (sa.rs:235-247).
State is `(label, last_idx, lms_vec)`. -/
def lmsRenameLoop (sa : SuffixArray) (length : Nat) :
    List Nat → Nat × Nat × BitsVec → Option (Nat × Nat × BitsVec)
  | [], st => some st
  | count :: rest, (label, last_idx, lms_vec) => do
    let idx := if count = sa.marker then length else count
    let t ← sa.type_map.get idx
    if t ≠ LeftMostSmall then lmsRenameLoop sa length rest (label, last_idx, lms_vec)
    else do
      let eq ← sa.is_equal_lms last_idx idx
      let label := if ¬ eq then label + 1 else label
      let lms_vec ← lms_vec.set idx label
      lmsRenameLoop sa length rest (label, idx, lms_vec)

/-- Step 5, first half, of `prepare_for_stacking` (sa.rs:225-250): the LMS
renaming.  Returns `(sa-with-replaced-array, label, lms_bytes)`. -/
def preparePhase1 (sa : SuffixArray) : Option (SuffixArray × Nat × BitsVec) := do
  let length := sa.input.len
  let input_bits := count_ones (next_power_of_two sa.input.len - 1)
  let approx_sa := sa.array
  let newArray ← BitsVec.new 1
  let sa := { sa with array := newArray }
  let last_idx ← approx_sa.get 0
  let lms_vec ← BitsVec.with_elements input_bits (length + 1) length
  let lms_vec ← lms_vec.set last_idx 0
  let approxList ← approx_sa.toList
  let (label, _, lms_bytes) ← lmsRenameLoop sa length (approxList.drop 1) (0, last_idx, lms_vec)
  some (sa, label, lms_bytes)

/-- Step 5, second half, of `prepare_for_stacking` (sa.rs:252-277): the
summary index, the recursion decision and `mapped_array`. -/
def preparePhase2 (sa : SuffixArray) (label : Nat) (lms_bytes : BitsVec) :
    Option (SuffixArray × Bool) := do
  let length := sa.input.len
  let summary0 ← BitsVec.new 32
  let lmsList ← lms_bytes.toList
  let summary_index ← lmsList.enum.foldlM
    (fun (acc : BitsVec) (p : Nat × Nat) =>
      if p.2 ≠ length then acc.push p.1 else some acc) summary0
  let is_recursive := label + 1 < summary_index.len
  let mapped_array ←
    if is_recursive then do
      let idxs ← summary_index.toList
      let vals ← idxs.mapM (fun i => lms_bytes.get i)
      BitsVec.from_iter 32 vals
    else do
      let sum_sa ← BitsVec.with_elements 32 (summary_index.len + 1) 0
      let sum_sa ← sum_sa.set 0 summary_index.len
      let idxs ← summary_index.toList
      idxs.enum.foldlM
        (fun (acc : BitsVec) (p : Nat × Nat) => do
          let idx ← lms_bytes.get p.2
          acc.set (idx + 1) p.1) sum_sa
  some ({ sa with array := mapped_array, temp_array := summary_index }, is_recursive)

/-- `SuffixArray::prepare_for_stacking` (sa.rs:219-278); returns the updated
record and `is_recursive`. -/
def SuffixArray.prepare_for_stacking (sa : SuffixArray) : Option (SuffixArray × Bool) := do
  let sa ← sa.induced_sort_large
  let sa ← sa.induced_sort_small
  let (sa, label, lms_bytes) ← preparePhase1 sa
  preparePhase2 sa label lms_bytes

/-- Placement loop of `fix_stacked` (sa.rs:288-294).  State is
`(suffix_idx, bucket_tails)`. -/
def fixStackedLoop (sa : SuffixArray) :
    List Nat → BitsVec × BitsVec → Option (BitsVec × BitsVec)
  | [], st => some st
  | i :: rest, (suffix_idx, bucket_tails) => do
    let s ← sa.array.get i
    let idx ← sa.temp_array.get s
    let bucket_idx ← sa.input.get idx
    let bucket_value ← bucket_tails.get bucket_idx
    let suffix_idx ← suffix_idx.set bucket_value idx
    let bucket_tails ← bucket_tails.set bucket_idx (wsub bucket_value 1)
    fixStackedLoop sa rest (suffix_idx, bucket_tails)

/-- `SuffixArray::fix_stacked` (sa.rs:281-303). -/
def SuffixArray.fix_stacked (sa : SuffixArray) : Option SuffixArray := do
  let suffix0 ← BitsVec.with_elements 32 (sa.input.len + 1) MARKER
  let (suffix_idx, _) ← fixStackedLoop sa
    (List.range' 2 (sa.array.len - 2)).reverse (suffix0, sa.bucket_tails)
  let suffix_idx ← suffix_idx.set 0 sa.input.len
  let sa := { sa with array := suffix_idx }
  let sa ← sa.induced_sort_large
  sa.induced_sort_small

/-- The recursion loop of `suffix_array_stacked` (sa.rs:395-402), with the
stack held in memory.  Fuel bounds the recursion depth; the reduced problem
always shrinks, so `length + 2` levels are more than enough. -/
def saLoop : Nat → SuffixArray → Bool → List SuffixArray →
    Option (SuffixArray × List SuffixArray)
  | 0, _, _, _ => none
  | f + 1, sa, is_recursive, stack =>
    if is_recursive then do
      let input ← sa.array.toList
      let length := input.length
      let stack := sa :: stack
      let next ← SuffixArray.build input length
      let (next, r) ← next.prepare_for_stacking
      saLoop f next r stack
    else some (sa, stack)

/-- The unwinding loop of `suffix_array_stacked` (sa.rs:405-409). -/
def unwindLoop : List SuffixArray → SuffixArray → Option SuffixArray
  | [], sa => some sa
  | next :: rest, sa => do
    let next := { next with array := sa.array }
    let next ← next.fix_stacked
    unwindLoop rest next

/-- `suffix_array_stacked` (sa.rs:390-412). -/
def suffix_array_stacked (input : List Nat) : Option (List Nat) := do
  let length := input.length
  let sa ← SuffixArray.build input length
  let (sa, r) ← sa.prepare_for_stacking
  let (sa, stack) ← saLoop (length + 2) sa r []
  let sa ← sa.fix_stacked
  let sa ← unwindLoop stack sa
  sa.array.toList

/-- `suffix_array` (sa.rs:372-378).  Both branches run `suffix_array_stacked`;
the file-backed stack used above `INPUT_LIMIT` round-trips frames through
scratch files and is I/O, so the model uses the in-memory stack for either
branch. -/
def suffix_array (input : List Nat) : Option (List Nat) :=
  suffix_array_stacked input

end Helix

namespace Helix

/-!
## BWT codec and FM-index (`src/bwt.rs`)

`bwt.rs` imports `insert` from `sa.rs` but applies it to plain `Vec<u32>`
frequency maps (`map: Vec<u32>` in `ibwt` and `new_from_bwt`). -/

/-- Modelled from the spec: the `Vec<u32>` instantiation of the
extend-on-demand counter used by `ibwt` and `FMIndex::new_from_bwt` is not in
`src/` (sa.rs:38-49 only carries the `BitsVec<usize>` version that `bwt.rs`
names in its `use sa::{insert, ...}`).  Spec §4.5: "`increment(v)` grows the
vector with zeros up to index `v` if needed, then increments and returns the
new count" — which is exactly what the `BitsVec` version of `insert` does.
Counter values are `u32`; wrap-around is immaterial below `2^32` increments. -/
def insertVec (map : List Nat) (value : Nat) : List Nat × Nat :=
  let map := if map.length ≤ value then map ++ List.replicate (value + 1 - map.length) 0 else map
  let newCount := map.getD value 0 + 1
  (map.set value newCount, newCount)

/-- `generate_occurrence_index` loop (bwt.rs:24-32): replace each frequency
with the running sum of the frequencies before it. -/
def genOccLoop : List Nat → Nat → List Nat
  | [], _ => []
  | c :: rest, idx => idx :: genOccLoop rest (idx + c)

/-- `generate_occurrence_index` (bwt.rs:24-32). -/
def generate_occurrence_index (map : List Nat) : List Nat := genOccLoop map 0

/-- `bwt` (bwt.rs:15-20). -/
def bwt (input : List Nat) : Option (List Nat) := do
  let sa ← suffix_array input
  sa.mapM (fun i => if i = 0 then some 0 else input[i - 1]?)

/-- The LF-vector loop shared by `ibwt` (bwt.rs:53-58) and `new_from_bwt`
(bwt.rs:146-150).  State is `(lf_vec, map)`. -/
def lfLoop : List (Nat × Nat) → List Nat × List Nat → Option (List Nat × List Nat)
  | [], st => some st
  | (i, c) :: rest, (lf, map) => do
    let val ← map[c]?
    let lf ← setc lf i val
    let map ← setc map c (val + 1)
    lfLoop rest (lf, map)

/-- The output loop of `ibwt` (bwt.rs:63-66): `for i in (0..(len - 1)).rev()`,
`output[i] = input[idx]; idx = lf[idx]`.  The counter is the loop index plus
one; `len - 1` wraps for empty input (debug Rust panics on the same input). -/
def ibwtLoop (input lf : List Nat) : Nat → Nat → List Nat → Option (List Nat)
  | 0, _, output => some output
  | k + 1, idx, output => do
    let v ← input[idx]?
    let output ← setc output k v
    let idx ← lf[idx]?
    ibwtLoop input lf k idx output

/-- `ibwt` (bwt.rs:42-70). -/
def ibwt (input : List Nat) : Option (List Nat) := do
  let map := input.foldl (fun m i => (insertVec m i).1) []
  let map := generate_occurrence_index map
  let (lf, _) ← lfLoop input.enum (List.replicate input.length 0, map)
  let output ← ibwtLoop input lf (wsub input.length 1) 0 (List.replicate input.length 0)
  some output.dropLast

/-- The `FMIndex` record (bwt.rs:95-105). -/
structure FMIndex where
  data : List Nat
  cache : List Nat
  occ_map : List Nat
  lf_vec : List Nat
  deriving Repr, DecidableEq

/-- Frequency/forward-count loop of `new_from_bwt` (bwt.rs:131-139).  State is
`(map, count, idx)`; `count[idx] = value` is always in bounds because `count`
was created with the data's length. -/
def fmCountLoop : List Nat → List Nat × List Nat × Nat → Option (List Nat × List Nat × Nat)
  | [], st => some st
  | c :: rest, (map, count, idx) =>
    let (map, value) := insertVec map c
    match setc count idx value with
    | none => none
    | some count => fmCountLoop rest (map, count, idx + 1)

/-- The `lf_vec` rewrite walk of `new_from_bwt` (bwt.rs:152-164): follow the
LF-mapping from position 0, replacing each visited entry by the decreasing
counter. -/
def fmWalkLoop (n : Nat) : Nat → Nat → Nat → List Nat → Option (List Nat)
  | 0, _, _, lf => some lf
  | k + 1, i, counter, lf => do
    let next ← lf[i]?
    let lf ← setc lf i counter
    fmWalkLoop n k next (counter - 1) lf

/-- `FMIndex::new_from_bwt` (bwt.rs:130-172).  The `u32` fields (`cache`,
`occ_map`, `lf_vec`) are modelled as `Nat`; they stay below `2^32` for data
shorter than `2^32` entries, which is also forced by the `as u32` casts. -/
def FMIndex.new_from_bwt (bwt_data : List Nat) : Option FMIndex := do
  let (map, count, _) ←
    fmCountLoop bwt_data ([], List.replicate bwt_data.length 0, 0)
  let map := generate_occurrence_index map
  let (lf_vec, _) ← lfLoop bwt_data.enum (count, map)
  let i ← lf_vec[0]?
  let lf_vec := lf_vec.set 0 0
  let counter := bwt_data.length - 1
  let lf_vec ← fmWalkLoop bwt_data.length (bwt_data.length - 1) i counter lf_vec
  some { data := bwt_data, cache := count, occ_map := map, lf_vec := lf_vec }

/-- `FMIndex::new` (bwt.rs:110-112). -/
def FMIndex.new (data : List Nat) : Option FMIndex := do
  FMIndex.new_from_bwt (← bwt data)

/-- The `(0..idx).rev().find(|&i| self.data[i] == ch)` search inside `nearest`
(bwt.rs:214-215).  The outer `Option` is the panic of `self.data[i]` (possible
when `idx` exceeds the data length), the inner one the `find` result. -/
def findRevLoop (data : List Nat) (ch : Nat) : Nat → Option (Option Nat)
  | 0 => some none
  | k + 1 =>
    match data[k]? with
    | none => none
    | some b => if b = ch then some (some k) else findRevLoop data ch k

/-- `FMIndex::nearest` (bwt.rs:211-221). -/
def FMIndex.nearest (fm : FMIndex) (idx ch : Nat) : Option Nat :=
  match fm.occ_map[ch]? with
  | some res =>
    if res > 0 then
      match findRevLoop fm.data ch idx with
      | none => none
      | some none => some (res + 0)
      | some (some i) =>
        match fm.cache[i]? with
        | none => none
        | some c => some (res + c)
    else some 0
  | none => some 0

/-- The backward-search loop of `get_range` (bwt.rs:226-232), fed the query
bytes in reverse.  The inner `Option` is `None` on an empty range. -/
def getRangeLoop (fm : FMIndex) : List Nat → Nat → Nat → Option (Option (Nat × Nat))
  | [], top, bottom => some (some (top, bottom))
  | ch :: rest, top, bottom => do
    let top ← fm.nearest top ch
    let bottom ← fm.nearest bottom ch
    if top ≥ bottom then some none else getRangeLoop fm rest top bottom

/-- `FMIndex::get_range` (bwt.rs:223-239). -/
def FMIndex.get_range (fm : FMIndex) (query : List Nat) : Option (Option (Nat × Nat)) := do
  match ← getRangeLoop fm query.reverse 0 fm.data.length with
  | none => some none
  | some (top, bottom) => if top ≥ bottom then some none else some (some (top, bottom))

/-- `FMIndex::count` (bwt.rs:242-247). -/
def FMIndex.count (fm : FMIndex) (query : List Nat) : Option Nat := do
  match ← fm.get_range query with
  | some (top, bottom) => some (bottom - top)
  | none => some 0

/-- `FMIndex::search` (bwt.rs:250-258). -/
def FMIndex.search (fm : FMIndex) (query : List Nat) : Option (List Nat) := do
  match ← fm.get_range query with
  | some (top, bottom) =>
    (List.range' top (bottom - top)).mapM (fun idx => do
      let d ← fm.data[idx]?
      let i ← fm.nearest idx d
      fm.lf_vec[i]?)
  | none => some []

end Helix

namespace Helix

/-!
## Verification layer

`Wf` is the representation invariant that every `BitsVec` reachable through
the public constructors satisfies; `rawElem` is the mathematical read-back of
element `i` from the packed words (what `get` computes, stated with `/`, `%`
instead of shifts and masks).
-/

/-- Representation invariant of a `BitsVec` with a positive width:
the width fits a word; `leftover` counts the unused low bits of the last
word; the words cover exactly `units` elements plus the `leftover` slack;
all words are word-sized; the unused low bits of the last word are zero. -/
def Wf (bv : BitsVec) : Prop :=
  0 < bv.bits ∧ bv.bits < 64 ∧ bv.leftover ≤ 64 ∧
  (bv.units * bv.bits + bv.leftover) % 64 = 0 ∧
  64 ≤ bv.units * bv.bits + bv.leftover ∧
  bv.inner.length = (bv.units * bv.bits + bv.leftover) / 64 ∧
  (∀ w ∈ bv.inner, w < 2 ^ 64) ∧
  bv.inner.getD (bv.inner.length - 1) 0 % 2 ^ bv.leftover = 0

/-- The value of the element with index `j` in a list of packed words, for
element width `b`: bits are packed from the high end of each word downward, an
element possibly straddling two words. -/
def rawAt (l : List Nat) (b j : Nat) : Nat :=
  let pos := j * b
  let idx := pos / 64
  let off := pos % 64
  let diff := 64 - off
  if b ≤ diff then l.getD idx 0 / 2 ^ (diff - b) % 2 ^ b
  else (l.getD idx 0 % 2 ^ diff) * 2 ^ (b - diff) + l.getD (idx + 1) 0 / 2 ^ (64 - (b - diff))

/-- The value of element `i` read back from the packed words. -/
def rawElem (bv : BitsVec) (i : Nat) : Nat := rawAt bv.inner bv.bits i

/-- The abstract contents of a `BitsVec`. -/
def absList (bv : BitsVec) : List Nat := (List.range bv.units).map (rawElem bv)

/-- A concrete well-formed packed vector: the elements `[5, 9, 3]` at width 4
(as `with_elements` builds it). -/
def sampleVec : BitsVec := { inner := [1427 * 2 ^ 52], units := 3, bits := 4, leftover := 52 }

/-- The 50-byte test string `"ATCTAGGAGATCTGAATCTAGTTCAACTAGCTAGATCTAGAGACAGCTAA"`. -/
def testInput : List Nat :=
  [65,84,67,84,65,71,71,65,71,65,84,67,84,71,65,65,84,67,84,65,71,84,84,67,65,
   65,67,84,65,71,67,84,65,71,65,84,67,84,65,71,65,71,65,67,65,71,67,84,65,65]

/-- The expected transform `"AATCGGAGTTGCTTTG\x00AGTAGTGATTTTAAGAAAAAACCCCCCTAAAACG"`. -/
def testBWT : List Nat :=
  [65,65,84,67,71,71,65,71,84,84,71,67,84,84,84,71,0,65,71,84,65,71,84,71,65,
   84,84,84,84,65,65,71,65,65,65,65,65,65,67,67,67,67,67,67,84,65,65,65,65,67,71]

/-- The FM-index that `FMIndex::new` builds for the input `"ACA"`
(BWT `[65, 67, 0, 65]`). -/
def fmSample : FMIndex :=
  { data := [65, 67, 0, 65],
    cache := [1, 1, 1, 2],
    occ_map := [0, 1, 1, 1, 1, 1, 1, 1, 1, 1, 1, 1, 1, 1, 1, 1, 1,
                1, 1, 1, 1, 1, 1, 1, 1, 1, 1, 1, 1, 1, 1, 1, 1, 1,
                1, 1, 1, 1, 1, 1, 1, 1, 1, 1, 1, 1, 1, 1, 1, 1, 1,
                1, 1, 1, 1, 1, 1, 1, 1, 1, 1, 1, 1, 1, 1, 1, 3, 3],
    lf_vec := [0, 3, 1, 2] }

/-- The empty packed vector of width `b` that `BitsVec::new` constructs. -/
def freshVec (b : Nat) : BitsVec :=
  { inner := [0], units := 0, bits := b, leftover := W }

/-- The byte-frequency table of a list, as `ibwt` builds it (bwt.rs:44-47). -/
def freqOf (data : List Nat) : List Nat :=
  data.foldl (fun m i => (insertVec m i).1) []

end Helix

namespace Helix

theorem shl_eq_of_lt {s : Nat} (h : s < 64) (a : Nat) : shl a s = a * 2 ^ s % 2 ^ 64 := by
  unfold shl
  rw [Nat.mod_eq_of_lt h, Nat.shiftLeft_eq]

theorem shl_eq_exact {s a : Nat} (h : s < 64) (h2 : a * 2 ^ s < 2 ^ 64) :
    shl a s = a * 2 ^ s := by
  rw [shl_eq_of_lt h, Nat.mod_eq_of_lt h2]

theorem shr_eq_of_lt {s : Nat} (h : s < 64) (a : Nat) : shr a s = a / 2 ^ s := by
  unfold shr
  rw [Nat.mod_eq_of_lt h, Nat.shiftRight_eq_div_pow]

theorem shl_one_sub_one {s : Nat} (h : s < 64) : shl 1 s - 1 = 2 ^ s - 1 := by
  rw [shl_eq_exact h (by simpa using Nat.pow_lt_pow_right (by omega) h)]
  simp

theorem and_mask_eq_mod {s : Nat} (h : s < 64) (a : Nat) : a &&& (shl 1 s - 1) = a % 2 ^ s := by
  rw [shl_one_sub_one h, Nat.and_pow_two_sub_one_eq_mod]

theorem or_eq_add {n a b : Nat} (hd : 2 ^ n ∣ a) (hb : b < 2 ^ n) : a ||| b = a + b := by
  obtain ⟨q, rfl⟩ := hd
  rw [← Nat.mul_add_lt_is_or hb]

theorem and_shiftLeft_comm (a b d : Nat) : a &&& (b <<< d) = ((a >>> d) &&& b) <<< d := by
  apply Nat.eq_of_testBit_eq
  intro i
  simp only [Nat.testBit_and, Nat.testBit_shiftLeft, Nat.testBit_shiftRight]
  by_cases h : d ≤ i
  · simp [h, Nat.add_sub_cancel' h, Bool.and_comm, Bool.and_assoc, Bool.and_left_comm]
  · simp [h]

theorem and_high_mask {d : Nat} (hd : d ≤ 64) {a : Nat} (ha : a < 2 ^ 64) :
    a &&& (2 ^ 64 - 2 ^ d) = 2 ^ d * (a / 2 ^ d) := by
  have h1 : (2 : Nat) ^ 64 - 2 ^ d = (2 ^ (64 - d) - 1) <<< d := by
    rw [Nat.shiftLeft_eq, Nat.sub_mul, ← pow_add, Nat.sub_add_cancel hd, one_mul]
  have hlt : a / 2 ^ d < 2 ^ (64 - d) := by
    apply Nat.div_lt_of_lt_mul
    calc a < 2 ^ 64 := ha
      _ = 2 ^ d * 2 ^ (64 - d) := by rw [← pow_add, Nat.add_sub_cancel' hd]
  rw [h1, and_shiftLeft_comm, Nat.shiftRight_eq_div_pow,
    Nat.and_pow_two_sub_one_eq_mod, Nat.shiftLeft_eq, Nat.mod_eq_of_lt hlt, Nat.mul_comm]

theorem notW_mask {d : Nat} (hd : d ≤ 64) : notW (2 ^ d - 1) = 2 ^ 64 - 2 ^ d := by
  unfold notW
  have h2 : (2:Nat) ^ d - 1 < 2 ^ 64 := by
    have : (2:Nat) ^ d ≤ 2 ^ 64 := Nat.pow_le_pow_right (by omega) hd
    omega
  rw [Nat.mod_eq_of_lt h2]
  have : (1:Nat) ≤ 2 ^ d := Nat.one_le_two_pow
  omega

theorem extract_congr_high {w w' : Nat} (d lo len : Nat) (h : w / 2 ^ d = w' / 2 ^ d) (hd : d ≤ lo) :
    w / 2 ^ lo % 2 ^ len = w' / 2 ^ lo % 2 ^ len := by
  have key : ∀ x : Nat, x / 2 ^ lo = x / 2 ^ d / 2 ^ (lo - d) := by
    intro x
    rw [Nat.div_div_eq_div_mul, ← pow_add, Nat.add_sub_cancel' hd]
  rw [key, key, h]

theorem extract_congr_low {w w' : Nat} (d lo len : Nat) (h : w % 2 ^ d = w' % 2 ^ d)
    (hble : lo + len ≤ d) :
    w / 2 ^ lo % 2 ^ len = w' / 2 ^ lo % 2 ^ len := by
  have key : ∀ x : Nat, x / 2 ^ lo % 2 ^ len = x % 2 ^ d % 2 ^ (lo + len) / 2 ^ lo := by
    intro x
    rw [Nat.mod_mod_of_dvd _ (pow_dvd_pow 2 hble), pow_add, Nat.mod_mul_right_div_self]
  rw [key, key, h]

/-- Dividing out a sum whose low part is below the divisor power. -/
theorem div_add_lt {d q r : Nat} (hr : r < 2 ^ d) : (2 ^ d * q + r) / 2 ^ d = q := by
  rw [Nat.mul_add_div (Nat.pos_pow_of_pos d (by omega)), Nat.div_eq_of_lt hr, Nat.add_zero]

theorem mod_add_lt {d q r : Nat} (hr : r < 2 ^ d) : (2 ^ d * q + r) % 2 ^ d = r := by
  rw [Nat.mul_add_mod, Nat.mod_eq_of_lt hr]

end Helix

namespace Helix

theorem wf_total_eq {bv : BitsVec} (hwf : Wf bv) :
    64 * bv.inner.length = bv.units * bv.bits + bv.leftover := by
  obtain ⟨-, -, -, hmod, -, hlen, -, -⟩ := hwf
  omega

theorem wf_word_lt {bv : BitsVec} (hwf : Wf bv) {k : Nat} (hk : k < bv.inner.length) :
    bv.inner.getD k 0 < 2 ^ 64 := by
  obtain ⟨-, -, -, -, -, -, hw, -⟩ := hwf
  have : bv.inner.getD k 0 = bv.inner[k] := List.getD_eq_getElem bv.inner 0 hk
  rw [this]
  exact hw _ (List.getElem_mem _)

theorem getElem?_of_lt {l : List Nat} {k : Nat} (hk : k < l.length) :
    l[k]? = some (l.getD k 0) := by
  rw [List.getElem?_eq_getElem hk, List.getD_eq_getElem l 0 hk]

theorem get_eq_rawElem {bv : BitsVec} {i : Nat} (hwf : Wf bv) (hi : i < bv.units) :
    bv.get i = some (rawElem bv i) := by
  obtain ⟨hb0, hb64, hr64, hmod, hge, hlen, hwlt, hzero⟩ := hwf
  have htot : 64 * bv.inner.length = bv.units * bv.bits + bv.leftover := by omega
  simp only [BitsVec.get, rawElem, rawAt, W]
  rw [if_pos hi]
  set b := bv.bits with hb
  set pos := i * b with hpos
  set idx := pos / 64 with hidx
  set off := pos % 64 with hoff
  have hposb : pos + b ≤ bv.units * b := by
    have h1 : i + 1 ≤ bv.units := hi
    calc pos + b = (i + 1) * b := by ring
      _ ≤ bv.units * b := Nat.mul_le_mul_right b h1
  have hposL : pos + b + bv.leftover ≤ 64 * bv.inner.length := by omega
  have hdm := Nat.div_add_mod pos 64
  have hofflt : off < 64 := Nat.mod_lt _ (by omega)
  have hidxL : idx < bv.inner.length := by omega
  have hw64 : bv.inner.getD idx 0 < 2 ^ 64 :=
    wf_word_lt ⟨hb0, hb64, hr64, hmod, hge, hlen, hwlt, hzero⟩ hidxL
  rw [getElem?_of_lt hidxL]
  set w := bv.inner.getD idx 0 with hwdef
  simp only
  by_cases hcross : 64 - off ≥ b
  · -- single-word read
    rw [if_pos hcross, if_pos (by omega : b ≤ 64 - off)]
    by_cases hoff0 : off = 0
    · rw [if_neg (by omega)]
      rw [shr_eq_of_lt (by omega)]
      congr 1
      rw [Nat.mod_eq_of_lt]
      apply Nat.div_lt_of_lt_mul
      calc w < 2 ^ 64 := hw64
        _ = 2 ^ (64 - off - b) * 2 ^ b := by
              rw [← pow_add]; congr 1; omega
    · rw [if_pos hoff0, and_mask_eq_mod (by omega), shr_eq_of_lt (by omega)]
      congr 1
      have h2 : (2:Nat) ^ (64 - off) = 2 ^ (64 - off - b) * 2 ^ b := by
        rw [← pow_add]; congr 1; omega
      rw [h2, Nat.mod_mul_right_div_self]
  · -- two-word read
    rw [if_neg hcross, if_neg (by omega : ¬ b ≤ 64 - off)]
    have hoff0 : off ≠ 0 := by omega
    have hidx1L : idx + 1 < bv.inner.length := by
      have h1 : 64 * (idx + 1) < pos + b := by omega
      omega
    rw [getElem?_of_lt hidx1L]
    have hw264 : bv.inner.getD (idx + 1) 0 < 2 ^ 64 :=
      wf_word_lt ⟨hb0, hb64, hr64, hmod, hge, hlen, hwlt, hzero⟩ hidx1L
    set w2 := bv.inner.getD (idx + 1) 0 with hw2def
    simp only
    rw [if_pos hoff0, and_mask_eq_mod (by omega)]
    congr 1
    set shift := b - (64 - off) with hshift
    have hs1 : 1 ≤ shift := by omega
    have hs63 : shift < 64 := by omega
    rw [shl_eq_exact (by omega) (by
      calc w % 2 ^ (64 - off) * 2 ^ shift < 2 ^ (64 - off) * 2 ^ shift :=
            (Nat.mul_lt_mul_right (Nat.pos_pow_of_pos _ (by omega))).mpr
              (Nat.mod_lt _ (Nat.pos_pow_of_pos _ (by omega)))
        _ = 2 ^ (64 - off + shift) := by rw [pow_add]
        _ ≤ 2 ^ 64 := Nat.pow_le_pow_right (by omega) (by omega)),
      shr_eq_of_lt (by omega)]
    rw [or_eq_add (dvd_mul_left _ _) (by
      apply Nat.div_lt_of_lt_mul
      calc w2 < 2 ^ 64 := hw264
        _ = 2 ^ (64 - shift) * 2 ^ shift := by rw [← pow_add]; congr 1; omega)]

end Helix

namespace Helix

/-- Elements that lie entirely below bit `r` of word `t` (counting the packed
stream up to `64*(t+1) - r` bits) are unaffected by changes to words past `t`
and to the low `r` bits of word `t`. -/
theorem rawAt_frame {l l' : List Nat} (b t r : Nat) {j : Nat}
    (hwords : ∀ k, k < t → l'.getD k 0 = l.getD k 0)
    (ht : l'.getD t 0 / 2 ^ r = l.getD t 0 / 2 ^ r)
    (hj : (j + 1) * b + r ≤ 64 * (t + 1)) (hb0 : 0 < b) :
    rawAt l' b j = rawAt l b j := by
  simp only [rawAt]
  set pos := j * b with hposdef
  set idx := pos / 64 with hidxdef
  set off := pos % 64 with hoffdef
  have hdm := Nat.div_add_mod pos 64
  have hofflt : off < 64 := Nat.mod_lt _ (by omega)
  have hposbound : pos + b + r ≤ 64 * (t + 1) := by
    have h1 : (j + 1) * b = j * b + b := Nat.succ_mul j b
    omega
  have hidxle : idx ≤ t := by omega
  by_cases hcross : b ≤ 64 - off
  · rw [if_pos hcross, if_pos hcross]
    rcases Nat.lt_or_ge idx t with hlt | hge
    · rw [hwords idx hlt]
    · have hidxt : idx = t := by omega
      subst hidxt
      exact extract_congr_high r (64 - off - b) b ht (by omega)
  · rw [if_neg hcross, if_neg hcross]
    have hidxlt : idx + 1 ≤ t := by
      have : 64 * (idx + 1) < pos + b := by omega
      omega
    rw [hwords idx (by omega)]
    congr 1
    rcases Nat.lt_or_ge (idx + 1) t with hlt | hge
    · rw [hwords (idx + 1) hlt]
    · have hidxt : idx + 1 = t := by omega
      rw [hidxt]
      have hlo : r ≤ 64 - (b - (64 - off)) := by omega
      have key : ∀ x : Nat, x / 2 ^ (64 - (b - (64 - off))) =
          x / 2 ^ r / 2 ^ (64 - (b - (64 - off)) - r) := by
        intro x
        rw [Nat.div_div_eq_div_mul, ← pow_add, Nat.add_sub_cancel' hlo]
      rw [key, key, ht]

end Helix

namespace Helix

theorem getD_set_self {l : List Nat} {i : Nat} (x : Nat) (h : i < l.length) :
    (l.set i x).getD i 0 = x := by
  rw [List.getD_eq_getElem _ _ (by simpa using h), List.getElem_set_self]

theorem getD_set_ne {l : List Nat} {i j : Nat} (x : Nat) (h : i ≠ j) :
    (l.set i x).getD j 0 = l.getD j 0 := by
  rcases Nat.lt_or_ge j l.length with hj | hj
  · rw [List.getD_eq_getElem _ _ (by simpa using hj), List.getD_eq_getElem _ _ hj,
      List.getElem_set_ne h]
  · rw [List.getD_eq_default _ _ (by simpa using hj), List.getD_eq_default _ _ hj]

theorem getD_append_left {l l' : List Nat} {k : Nat} (h : k < l.length) :
    (l ++ l').getD k 0 = l.getD k 0 := by
  rw [List.getD_eq_getElem _ _ (by simp; omega), List.getD_eq_getElem _ _ h,
    List.getElem_append_left h]

theorem getD_append_last {l : List Nat} (x : Nat) :
    (l ++ [x]).getD l.length 0 = x := by
  rw [List.getD_eq_getElem _ _ (by simp)]
  rw [List.getElem_append_right (Nat.le_refl _)]
  simp


theorem getD_append_len {l : List Nat} (x : Nat) {n : Nat} (h : n = l.length) :
    (l ++ [x]).getD n 0 = x := by
  rw [h]
  exact getD_append_last x

theorem mod_eq_zero_of_dvd {a b : Nat} (h : a ∣ b) : b % a = 0 := by
  obtain ⟨c, rfl⟩ := h
  simp [Nat.mul_mod_right]

theorem pow_split {a c : Nat} (h : a ≤ c) : (2:Nat) ^ c = 2 ^ (c - a) * 2 ^ a := by
  rw [← pow_add, Nat.sub_add_cancel h]

theorem mem_set_cases {l : List Nat} {i : Nat} {x y : Nat} (h : y ∈ l.set i x) :
    y ∈ l ∨ y = x := by
  have := List.mem_or_eq_of_mem_set h
  tauto

end Helix

namespace Helix

/-- `push` on a well-formed vector with an in-range value succeeds, appends the
value, and leaves every existing element unchanged. -/
theorem push_spec {bv : BitsVec} {v : Nat} (hwf : Wf bv) (hv : v < 2 ^ bv.bits) :
    ∃ bv', bv.push v = some bv' ∧ Wf bv' ∧
      bv'.units = bv.units + 1 ∧ bv'.bits = bv.bits ∧
      bv'.leftover = (if bv.leftover < bv.bits then 64 - (bv.bits - bv.leftover)
                      else bv.leftover - bv.bits) ∧
      (∀ j, j < bv.units → rawElem bv' j = rawElem bv j) ∧
      rawElem bv' bv.units = v := by
  obtain ⟨hb0, hb64, hr64, hmod, hge, hlen, hwlt, hzero⟩ := hwf
  have htot : 64 * bv.inner.length = bv.units * bv.bits + bv.leftover := by omega
  have hL1 : 1 ≤ bv.inner.length := by omega
  have hassert : ¬ shr v bv.bits ≠ 0 := by
    rw [shr_eq_of_lt hb64, Nat.div_eq_of_lt hv]; simp
  have hidxL : bv.inner.length - 1 < bv.inner.length := by omega
  set w := bv.inner.getD (bv.inner.length - 1) 0 with hwdef
  have hsome : bv.inner[bv.inner.length - 1]? = some w := getElem?_of_lt hidxL
  have hw64 : w < 2 ^ 64 := wf_word_lt ⟨hb0, hb64, hr64, hmod, hge, hlen, hwlt, hzero⟩ hidxL
  have hdvd : 2 ^ bv.leftover ∣ w := Nat.dvd_of_mod_eq_zero hzero
  have hq : 2 ^ bv.leftover * (w / 2 ^ bv.leftover) = w := Nat.mul_div_cancel' hdvd
  have hqlt : w / 2 ^ bv.leftover < 2 ^ (64 - bv.leftover) := by
    apply Nat.div_lt_of_lt_mul
    calc w < 2 ^ 64 := hw64
      _ = 2 ^ bv.leftover * 2 ^ (64 - bv.leftover) := by
            rw [← pow_add, Nat.add_sub_cancel' hr64]
  have hsuccmul : (bv.units + 1) * bv.bits = bv.units * bv.bits + bv.bits := Nat.succ_mul _ _
  have hjbound : ∀ j, j < bv.units →
      (j + 1) * bv.bits + bv.leftover ≤ 64 * (bv.inner.length - 1 + 1) := by
    intro j hj
    have h1 : (j + 1) * bv.bits ≤ bv.units * bv.bits := Nat.mul_le_mul_right _ hj
    omega
  by_cases hcross : bv.leftover < bv.bits
  · -- crossing push
    have hleft1 : 1 ≤ bv.bits - bv.leftover := by omega
    have hleft63 : bv.bits - bv.leftover < 64 := by omega
    have hsplit : (2:Nat) ^ bv.bits = 2 ^ (bv.bits - bv.leftover) * 2 ^ bv.leftover := by
      rw [← pow_add]; congr 1; omega
    have hdivlt : v / 2 ^ (bv.bits - bv.leftover) < 2 ^ bv.leftover := by
      apply Nat.div_lt_of_lt_mul; rw [← hsplit]; exact hv
    have hw1 : w ||| shr v (bv.bits - bv.leftover) = w + v / 2 ^ (bv.bits - bv.leftover) := by
      rw [shr_eq_of_lt hleft63]
      exact or_eq_add hdvd hdivlt
    have hval1 : (if bv.leftover ≠ 0 then v &&& (shl 1 (bv.bits - bv.leftover) - 1) else v) =
        v % 2 ^ (bv.bits - bv.leftover) := by
      by_cases hr0 : bv.leftover = 0
      · rw [if_neg (by simp [hr0])]
        rw [Nat.mod_eq_of_lt (by rw [show bv.bits - bv.leftover = bv.bits by omega]; exact hv)]
      · rw [if_pos hr0, and_mask_eq_mod hleft63]
    have hsetlen : (bv.inner.set (bv.inner.length - 1) (w ||| shr v (bv.bits - bv.leftover))).length
        = bv.inner.length := by simp
    have hsome2 :
        ((bv.inner.set (bv.inner.length - 1) (w ||| shr v (bv.bits - bv.leftover))) ++ [0])[bv.inner.length - 1 + 1]?
        = some 0 := by
      rw [show bv.inner.length - 1 + 1 = bv.inner.length from by omega,
        List.getElem?_eq_getElem (show bv.inner.length < _ by simp)]
      congr 1
      rw [List.getElem_append_right (by rw [hsetlen])]
      simp [hsetlen]
    have hpush : bv.push v = some
        { inner := ((bv.inner.set (bv.inner.length - 1) (w ||| shr v (bv.bits - bv.leftover))) ++ [0]).set
            (bv.inner.length - 1 + 1)
            (0 ||| shl (if bv.leftover ≠ 0 then v &&& (shl 1 (bv.bits - bv.leftover) - 1) else v)
              (64 - (bv.bits - bv.leftover))),
          units := bv.units + 1, bits := bv.bits, leftover := 64 - (bv.bits - bv.leftover) } := by
      simp only [BitsVec.push, W, if_neg hassert, if_pos hcross, hsome, hsome2]
    have hshlval : (0:Nat) ||| shl (if bv.leftover ≠ 0 then v &&& (shl 1 (bv.bits - bv.leftover) - 1) else v)
          (64 - (bv.bits - bv.leftover)) =
        v % 2 ^ (bv.bits - bv.leftover) * 2 ^ (64 - (bv.bits - bv.leftover)) := by
      rw [hval1, Nat.zero_or]
      rw [shl_eq_exact (by omega)]
      calc v % 2 ^ (bv.bits - bv.leftover) * 2 ^ (64 - (bv.bits - bv.leftover))
            < 2 ^ (bv.bits - bv.leftover) * 2 ^ (64 - (bv.bits - bv.leftover)) :=
            (Nat.mul_lt_mul_right (Nat.pos_pow_of_pos _ (by omega))).mpr
              (Nat.mod_lt _ (Nat.pos_pow_of_pos _ (by omega)))
        _ = 2 ^ 64 := by rw [← pow_add]; congr 1; omega
    have hinner : (((bv.inner.set (bv.inner.length - 1) (w ||| shr v (bv.bits - bv.leftover))) ++ [0]).set
            (bv.inner.length - 1 + 1)
            (0 ||| shl (if bv.leftover ≠ 0 then v &&& (shl 1 (bv.bits - bv.leftover) - 1) else v)
              (64 - (bv.bits - bv.leftover)))) =
        (bv.inner.set (bv.inner.length - 1) (w + v / 2 ^ (bv.bits - bv.leftover))) ++
          [v % 2 ^ (bv.bits - bv.leftover) * 2 ^ (64 - (bv.bits - bv.leftover))] := by
      rw [hshlval, hw1, List.set_append, if_neg (by rw [List.length_set]; omega)]
      rw [show (bv.inner.set (bv.inner.length - 1) (w + v / 2 ^ (bv.bits - bv.leftover))).length
            = bv.inner.length from by simp]
      rw [show bv.inner.length - 1 + 1 - bv.inner.length = 0 from by omega]
      rfl
    have hlast64 : w + v / 2 ^ (bv.bits - bv.leftover) < 2 ^ 64 := by
      calc w + v / 2 ^ (bv.bits - bv.leftover) < 2 ^ bv.leftover * (w / 2 ^ bv.leftover) + 2 ^ bv.leftover := by omega
        _ = 2 ^ bv.leftover * (w / 2 ^ bv.leftover + 1) := by ring
        _ ≤ 2 ^ bv.leftover * 2 ^ (64 - bv.leftover) := Nat.mul_le_mul_left _ (by omega)
        _ = 2 ^ 64 := by rw [← pow_add, Nat.add_sub_cancel' hr64]
    have hnew64 : v % 2 ^ (bv.bits - bv.leftover) * 2 ^ (64 - (bv.bits - bv.leftover)) < 2 ^ 64 := by
      calc v % 2 ^ (bv.bits - bv.leftover) * 2 ^ (64 - (bv.bits - bv.leftover))
            < 2 ^ (bv.bits - bv.leftover) * 2 ^ (64 - (bv.bits - bv.leftover)) :=
            (Nat.mul_lt_mul_right (Nat.pos_pow_of_pos _ (by omega))).mpr
              (Nat.mod_lt _ (Nat.pos_pow_of_pos _ (by omega)))
        _ = 2 ^ 64 := by rw [← pow_add]; congr 1; omega
    have hdivq : (w + v / 2 ^ (bv.bits - bv.leftover)) / 2 ^ bv.leftover = w / 2 ^ bv.leftover := by
      conv_lhs => rw [← hq]
      exact div_add_lt hdivlt
    refine ⟨_, hpush, ?_, rfl, rfl, by rw [if_pos hcross], ?_, ?_⟩
    · refine ⟨hb0, hb64, ?_, ?_, ?_, ?_, ?_, ?_⟩
      · show 64 - (bv.bits - bv.leftover) ≤ 64
        omega
      · show ((bv.units + 1) * bv.bits + (64 - (bv.bits - bv.leftover))) % 64 = 0
        omega
      · show 64 ≤ (bv.units + 1) * bv.bits + (64 - (bv.bits - bv.leftover))
        omega
      · simp only [hinner, List.length_append, List.length_set, List.length_cons,
          List.length_nil]
        omega
      · intro x hx
        simp only [hinner] at hx
        rcases List.mem_append.mp hx with hx | hx
        · rcases mem_set_cases hx with hx | rfl
          · exact hwlt _ hx
          · exact hlast64
        · rcases List.mem_singleton.mp hx with rfl
          exact hnew64
      · simp only [hinner, List.length_append, List.length_set, List.length_cons,
          List.length_nil]
        rw [show bv.inner.length + 1 - 1 = (bv.inner.set (bv.inner.length - 1)
              (w + v / 2 ^ (bv.bits - bv.leftover))).length from by simp,
          getD_append_last]
        exact mod_eq_zero_of_dvd (Dvd.intro_left _ rfl)
    · intro j hj
      show rawAt _ bv.bits j = rawAt bv.inner bv.bits j
      rw [hinner]
      apply rawAt_frame bv.bits (bv.inner.length - 1) bv.leftover ?_ ?_ (hjbound j hj) hb0
      · intro k hk
        rw [getD_append_left (by simp; omega), getD_set_ne _ (by omega)]
      · rw [getD_append_left (by simp; omega), getD_set_self _ (by omega), hdivq]
    · show rawAt _ bv.bits bv.units = v
      rw [hinner, rawAt]
      simp only
      by_cases hr0 : bv.leftover = 0
      · -- the old last word was exactly full: the element sits alone in the new word
        have hpos : bv.units * bv.bits = 64 * bv.inner.length := by omega
        have hdiv : bv.units * bv.bits / 64 = bv.inner.length := by omega
        have hmod0 : bv.units * bv.bits % 64 = 0 := by omega
        rw [hdiv, hmod0]
        rw [if_pos (by omega)]
        rw [getD_append_len _ (by simp), hr0]
        simp only [Nat.sub_zero]
        rw [Nat.mul_div_cancel _ (Nat.pos_pow_of_pos _ (by omega))]
        rw [Nat.mod_eq_of_lt (Nat.mod_lt _ (Nat.pos_pow_of_pos _ (by omega)))]
        exact Nat.mod_eq_of_lt hv
      · -- the element straddles the old last word and the new one
        have hr1 : 1 ≤ bv.leftover := by omega
        have hpos : bv.units * bv.bits = 64 * (bv.inner.length - 1) + (64 - bv.leftover) := by omega
        have hdiv : bv.units * bv.bits / 64 = bv.inner.length - 1 := by omega
        have hmodr : bv.units * bv.bits % 64 = 64 - bv.leftover := by omega
        rw [hdiv, hmodr]
        rw [if_neg (by omega)]
        rw [show 64 - (64 - bv.leftover) = bv.leftover from by omega]
        rw [getD_append_left (by simp; omega), getD_set_self _ (by omega)]
        rw [show bv.inner.length - 1 + 1 = bv.inner.length from by omega]
        rw [getD_append_len _ (by simp)]
        rw [show (w + v / 2 ^ (bv.bits - bv.leftover)) % 2 ^ bv.leftover
              = v / 2 ^ (bv.bits - bv.leftover) from by
          conv_lhs => rw [← hq]
          exact mod_add_lt hdivlt]
        rw [Nat.mul_div_cancel _ (Nat.pos_pow_of_pos _ (by omega))]
        rw [Nat.mul_comm]
        exact Nat.div_add_mod v (2 ^ (bv.bits - bv.leftover))
  · -- non-crossing push: the value fits in the last word
    have hrb : bv.bits ≤ bv.leftover := by omega
    have hr1 : 1 ≤ bv.leftover := by omega
    have hvlt : v * 2 ^ (bv.leftover - bv.bits) < 2 ^ bv.leftover := by
      calc v * 2 ^ (bv.leftover - bv.bits) < 2 ^ bv.bits * 2 ^ (bv.leftover - bv.bits) :=
            (Nat.mul_lt_mul_right (Nat.pos_pow_of_pos _ (by omega))).mpr hv
        _ = 2 ^ bv.leftover := by rw [← pow_add]; congr 1; omega
    have horval : w ||| shl v (bv.leftover - bv.bits) = w + v * 2 ^ (bv.leftover - bv.bits) := by
      rw [shl_eq_exact (by omega) (by
        calc v * 2 ^ (bv.leftover - bv.bits) < 2 ^ bv.leftover := hvlt
          _ ≤ 2 ^ 64 := Nat.pow_le_pow_right (by omega) hr64)]
      exact or_eq_add hdvd hvlt
    have hpush : bv.push v = some
        { inner := bv.inner.set (bv.inner.length - 1) (w ||| shl v (bv.leftover - bv.bits)),
          units := bv.units + 1, bits := bv.bits, leftover := bv.leftover - bv.bits } := by
      simp only [BitsVec.push, W, if_neg hassert, if_neg hcross, hsome]
    have hlastA : w + v * 2 ^ (bv.leftover - bv.bits) < 2 ^ 64 := by
      calc w + v * 2 ^ (bv.leftover - bv.bits)
            < 2 ^ bv.leftover * (w / 2 ^ bv.leftover) + 2 ^ bv.leftover := by omega
        _ = 2 ^ bv.leftover * (w / 2 ^ bv.leftover + 1) := by ring
        _ ≤ 2 ^ bv.leftover * 2 ^ (64 - bv.leftover) := Nat.mul_le_mul_left _ (by omega)
        _ = 2 ^ 64 := by rw [← pow_add, Nat.add_sub_cancel' hr64]
    have hdvdrb : 2 ^ (bv.leftover - bv.bits) ∣ w :=
      dvd_trans (pow_dvd_pow 2 (by omega)) hdvd
    have hdivqA : (w + v * 2 ^ (bv.leftover - bv.bits)) / 2 ^ bv.leftover = w / 2 ^ bv.leftover := by
      conv_lhs => rw [← hq]
      exact div_add_lt hvlt
    refine ⟨_, hpush, ?_, rfl, rfl, by rw [if_neg hcross], ?_, ?_⟩
    · refine ⟨hb0, hb64, ?_, ?_, ?_, ?_, ?_, ?_⟩
      · show bv.leftover - bv.bits ≤ 64
        omega
      · show ((bv.units + 1) * bv.bits + (bv.leftover - bv.bits)) % 64 = 0
        omega
      · show 64 ≤ (bv.units + 1) * bv.bits + (bv.leftover - bv.bits)
        omega
      · show (bv.inner.set (bv.inner.length - 1) (w ||| shl v (bv.leftover - bv.bits))).length
            = ((bv.units + 1) * bv.bits + (bv.leftover - bv.bits)) / 64
        rw [List.length_set]
        omega
      · intro x hx
        rcases mem_set_cases hx with hx | rfl
        · exact hwlt _ hx
        · rw [horval]; exact hlastA
      · show (bv.inner.set (bv.inner.length - 1) (w ||| shl v (bv.leftover - bv.bits))).getD
            ((bv.inner.set (bv.inner.length - 1) (w ||| shl v (bv.leftover - bv.bits))).length - 1) 0
            % 2 ^ (bv.leftover - bv.bits) = 0
        rw [List.length_set, getD_set_self _ (by omega), horval]
        exact mod_eq_zero_of_dvd (Nat.dvd_add hdvdrb (Dvd.intro_left _ rfl))
    · intro j hj
      show rawAt _ bv.bits j = rawAt bv.inner bv.bits j
      apply rawAt_frame bv.bits (bv.inner.length - 1) bv.leftover ?_ ?_ (hjbound j hj) hb0
      · intro k hk
        rw [getD_set_ne _ (by omega)]
      · rw [getD_set_self _ (by omega), horval, hdivqA]
    · show rawAt _ bv.bits bv.units = v
      rw [rawAt]
      simp only
      have hpos : bv.units * bv.bits = 64 * (bv.inner.length - 1) + (64 - bv.leftover) := by omega
      have hdiv : bv.units * bv.bits / 64 = bv.inner.length - 1 := by omega
      have hmodr : bv.units * bv.bits % 64 = 64 - bv.leftover := by omega
      rw [hdiv, hmodr]
      rw [if_pos (by omega)]
      rw [show 64 - (64 - bv.leftover) = bv.leftover from by omega]
      rw [getD_set_self _ (by omega), horval]
      have hkey : 2 ^ (bv.leftover - bv.bits) * (2 ^ bv.bits * (w / 2 ^ bv.leftover) + v)
          = w + v * 2 ^ (bv.leftover - bv.bits) := by
        rw [Nat.mul_add, ← Nat.mul_assoc, ← pow_add,
          show bv.leftover - bv.bits + bv.bits = bv.leftover from by omega, hq,
          Nat.mul_comm]
      rw [← hkey]
      rw [Nat.mul_div_cancel_left _ (Nat.pos_pow_of_pos _ (by omega))]
      rw [Nat.mul_add_mod]
      exact Nat.mod_eq_of_lt hv

end Helix

namespace Helix

/-- Elements whose bit range misses the window `[lo, hi)` (from the LSB) of
word `t` are unaffected by a change confined to that window. -/
theorem rawAt_frame_mid {l l' : List Nat} (b t lo hi : Nat) {j : Nat}
    (hwords : ∀ k, k ≠ t → l'.getD k 0 = l.getD k 0)
    (hhigh : l'.getD t 0 / 2 ^ hi = l.getD t 0 / 2 ^ hi)
    (hlow : l'.getD t 0 % 2 ^ lo = l.getD t 0 % 2 ^ lo)
    (hmiss : (j + 1) * b + hi ≤ 64 * (t + 1) ∨ 64 * (t + 1) ≤ j * b + lo)
    (hb0 : 0 < b) (hb64 : b < 64) (hlo64 : lo ≤ 64) :
    rawAt l' b j = rawAt l b j := by
  simp only [rawAt]
  set pos := j * b with hposdef
  set idx := pos / 64 with hidxdef
  set off := pos % 64 with hoffdef
  have hdm := Nat.div_add_mod pos 64
  have hofflt : off < 64 := Nat.mod_lt _ (by omega)
  have hsm : (j + 1) * b = pos + b := by rw [Nat.succ_mul, hposdef]
  by_cases hcross : b ≤ 64 - off
  · rw [if_pos hcross, if_pos hcross]
    by_cases ht : idx = t
    · subst ht
      rcases hmiss with hmiss | hmiss
      · exact extract_congr_high hi (64 - off - b) b hhigh (by omega)
      · exact extract_congr_low lo (64 - off - b) b hlow (by omega)
    · rw [hwords idx ht]
  · rw [if_neg hcross, if_neg hcross]
    by_cases ht : idx = t
    · subst ht
      have hdiffle : 64 - off ≤ lo := by
        rcases hmiss with hmiss | hmiss
        · omega
        · omega
      rw [show ∀ x : Nat, x % 2 ^ (64 - off) = x % 2 ^ lo % 2 ^ (64 - off) from
          fun x => (Nat.mod_mod_of_dvd x (pow_dvd_pow 2 hdiffle)).symm]
      rw [hlow, Nat.mod_mod_of_dvd _ (pow_dvd_pow 2 hdiffle)]
      rw [hwords (idx + 1) (by omega)]
    · rw [hwords idx ht]
      congr 1
      by_cases ht1 : idx + 1 = t
      · subst ht1
        have hhile : hi ≤ 64 - (b - (64 - off)) := by
          rcases hmiss with hmiss | hmiss
          · omega
          · omega
        have key : ∀ x : Nat, x / 2 ^ (64 - (b - (64 - off))) =
            x / 2 ^ hi / 2 ^ (64 - (b - (64 - off)) - hi) := by
          intro x
          rw [Nat.div_div_eq_div_mul, ← pow_add, Nat.add_sub_cancel' hhile]
        rw [key, key, hhigh]
      · rw [hwords (idx + 1) ht1]

end Helix

namespace Helix

/-- `set` on a well-formed vector with a valid index and in-range value
succeeds, stores the value at that index, and leaves every other element
unchanged. -/
theorem set_spec {bv : BitsVec} {i v : Nat} (hwf : Wf bv) (hi : i < bv.units)
    (hv : v < 2 ^ bv.bits) :
    ∃ bv', bv.set i v = some bv' ∧ Wf bv' ∧
      bv'.units = bv.units ∧ bv'.bits = bv.bits ∧ bv'.leftover = bv.leftover ∧
      rawElem bv' i = v ∧
      ∀ j, j < bv.units → j ≠ i → rawElem bv' j = rawElem bv j := by
  obtain ⟨hb0, hb64, hr64, hmod, hge, hlen, hwlt, hzero⟩ := hwf
  have htot : 64 * bv.inner.length = bv.units * bv.bits + bv.leftover := by omega
  have hassert : ¬ shr v bv.bits ≠ 0 := by
    rw [shr_eq_of_lt hb64, Nat.div_eq_of_lt hv]; simp
  have hdm := Nat.div_add_mod (i * bv.bits) 64
  have hofflt : i * bv.bits % 64 < 64 := Nat.mod_lt _ (by omega)
  have hposb : i * bv.bits + bv.bits ≤ bv.units * bv.bits := by
    have h1 : (i + 1) * bv.bits ≤ bv.units * bv.bits := Nat.mul_le_mul_right _ hi
    have h2 : (i + 1) * bv.bits = i * bv.bits + bv.bits := Nat.succ_mul _ _
    omega
  have hidxL : i * bv.bits / 64 < bv.inner.length := by omega
  set w := bv.inner.getD (i * bv.bits / 64) 0 with hwdef
  have hsome : bv.inner[i * bv.bits / 64]? = some w := getElem?_of_lt hidxL
  have hw64 : w < 2 ^ 64 := wf_word_lt ⟨hb0, hb64, hr64, hmod, hge, hlen, hwlt, hzero⟩ hidxL
  have hqlt : ∀ d : Nat, d ≤ 64 → w / 2 ^ d < 2 ^ (64 - d) := by
    intro d hd
    apply Nat.div_lt_of_lt_mul
    calc w < 2 ^ 64 := hw64
      _ = 2 ^ d * 2 ^ (64 - d) := by rw [← pow_add, Nat.add_sub_cancel' hd]
  by_cases hcross : 64 - i * bv.bits % 64 ≥ bv.bits
  · -- the element lies inside a single word
    have hshift63 : 64 - i * bv.bits % 64 - bv.bits < 64 := by omega
    have hlast : w &&& (shl 1 (64 - i * bv.bits % 64 - bv.bits) - 1)
        = w % 2 ^ (64 - i * bv.bits % 64 - bv.bits) :=
      and_mask_eq_mod hshift63 w
    have hmask : w &&& (if i * bv.bits % 64 = 0 then 0
          else shl (shl 1 (i * bv.bits % 64) - 1) (64 - i * bv.bits % 64))
        = 2 ^ (64 - i * bv.bits % 64) * (w / 2 ^ (64 - i * bv.bits % 64)) := by
      by_cases hoff0 : i * bv.bits % 64 = 0
      · rw [if_pos hoff0, Nat.and_zero, hoff0]
        rw [Nat.sub_zero, Nat.div_eq_of_lt hw64, Nat.mul_zero]
      · rw [if_neg hoff0, shl_one_sub_one (by omega)]
        have hone : (1:Nat) ≤ 2 ^ (i * bv.bits % 64) := Nat.one_le_two_pow
        have hb1 : (2 ^ (i * bv.bits % 64) - 1) * 2 ^ (64 - i * bv.bits % 64) < 2 ^ 64 := by
          calc (2 ^ (i * bv.bits % 64) - 1) * 2 ^ (64 - i * bv.bits % 64)
                < 2 ^ (i * bv.bits % 64) * 2 ^ (64 - i * bv.bits % 64) :=
                (Nat.mul_lt_mul_right (Nat.pos_pow_of_pos _ (by omega))).mpr (by omega)
            _ = 2 ^ 64 := by rw [← pow_add]; congr 1; omega
        rw [shl_eq_exact (by omega) hb1]
        rw [show (2 ^ (i * bv.bits % 64) - 1) * 2 ^ (64 - i * bv.bits % 64)
              = 2 ^ 64 - 2 ^ (64 - i * bv.bits % 64) from by
          rw [Nat.sub_mul, ← pow_add, one_mul]
          congr 2
          omega]
        exact and_high_mask (by omega) hw64
    have hshl : shl v (64 - i * bv.bits % 64 - bv.bits)
        = v * 2 ^ (64 - i * bv.bits % 64 - bv.bits) := by
      have h1 : 64 - i * bv.bits % 64 - bv.bits < 64 := by omega
      have h2 : v * 2 ^ (64 - i * bv.bits % 64 - bv.bits) < 2 ^ 64 := by
        calc v * 2 ^ (64 - i * bv.bits % 64 - bv.bits)
              < 2 ^ bv.bits * 2 ^ (64 - i * bv.bits % 64 - bv.bits) :=
              (Nat.mul_lt_mul_right (Nat.pos_pow_of_pos _ (by omega))).mpr hv
          _ ≤ 2 ^ 64 := by
              rw [← pow_add]
              exact Nat.pow_le_pow_right (by omega) (by omega)
      exact shl_eq_exact h1 h2
    have hvshift : v * 2 ^ (64 - i * bv.bits % 64 - bv.bits) < 2 ^ (64 - i * bv.bits % 64) := by
      calc v * 2 ^ (64 - i * bv.bits % 64 - bv.bits)
            < 2 ^ bv.bits * 2 ^ (64 - i * bv.bits % 64 - bv.bits) :=
            (Nat.mul_lt_mul_right (Nat.pos_pow_of_pos _ (by omega))).mpr hv
        _ = 2 ^ (64 - i * bv.bits % 64) := by rw [← pow_add]; congr 1; omega
    have hNEW : (w &&& (if i * bv.bits % 64 = 0 then 0
          else shl (shl 1 (i * bv.bits % 64) - 1) (64 - i * bv.bits % 64)))
          ||| shl v (64 - i * bv.bits % 64 - bv.bits)
          ||| (w &&& (shl 1 (64 - i * bv.bits % 64 - bv.bits) - 1))
        = 2 ^ (64 - i * bv.bits % 64) * (w / 2 ^ (64 - i * bv.bits % 64))
          + v * 2 ^ (64 - i * bv.bits % 64 - bv.bits)
          + w % 2 ^ (64 - i * bv.bits % 64 - bv.bits) := by
      rw [hmask, hlast, hshl]
      rw [or_eq_add (dvd_mul_right _ _) hvshift]
      have hd2 : 2 ^ (64 - i * bv.bits % 64 - bv.bits) ∣
          2 ^ (64 - i * bv.bits % 64) * (w / 2 ^ (64 - i * bv.bits % 64))
            + v * 2 ^ (64 - i * bv.bits % 64 - bv.bits) := by
        apply Nat.dvd_add
        · exact dvd_trans (pow_dvd_pow 2 (by omega)) (dvd_mul_right _ _)
        · exact dvd_mul_left _ _
      rw [or_eq_add hd2 (Nat.mod_lt _ (Nat.pos_pow_of_pos _ (by omega)))]
    have hpows : (2:Nat) ^ bv.bits * 2 ^ (64 - i * bv.bits % 64 - bv.bits)
        = 2 ^ (64 - i * bv.bits % 64) := by
      rw [← pow_add]; congr 1; omega
    have hwmod : w % 2 ^ (64 - i * bv.bits % 64 - bv.bits)
        < 2 ^ (64 - i * bv.bits % 64 - bv.bits) :=
      Nat.mod_lt _ (Nat.pos_pow_of_pos _ (by omega))
    have hrest : v * 2 ^ (64 - i * bv.bits % 64 - bv.bits)
          + w % 2 ^ (64 - i * bv.bits % 64 - bv.bits) < 2 ^ (64 - i * bv.bits % 64) := by
      have hv1 : (v + 1) * 2 ^ (64 - i * bv.bits % 64 - bv.bits)
          ≤ 2 ^ bv.bits * 2 ^ (64 - i * bv.bits % 64 - bv.bits) :=
        Nat.mul_le_mul_right _ (by omega)
      have hsm : (v + 1) * 2 ^ (64 - i * bv.bits % 64 - bv.bits)
          = v * 2 ^ (64 - i * bv.bits % 64 - bv.bits) + 2 ^ (64 - i * bv.bits % 64 - bv.bits) :=
        Nat.succ_mul _ _
      omega
    have hdivNEW : (2 ^ (64 - i * bv.bits % 64) * (w / 2 ^ (64 - i * bv.bits % 64))
          + v * 2 ^ (64 - i * bv.bits % 64 - bv.bits)
          + w % 2 ^ (64 - i * bv.bits % 64 - bv.bits)) / 2 ^ (64 - i * bv.bits % 64)
        = w / 2 ^ (64 - i * bv.bits % 64) := by
      rw [Nat.add_assoc]
      exact div_add_lt hrest
    have hmodNEW : (2 ^ (64 - i * bv.bits % 64) * (w / 2 ^ (64 - i * bv.bits % 64))
          + v * 2 ^ (64 - i * bv.bits % 64 - bv.bits)
          + w % 2 ^ (64 - i * bv.bits % 64 - bv.bits)) % 2 ^ (64 - i * bv.bits % 64 - bv.bits)
        = w % 2 ^ (64 - i * bv.bits % 64 - bv.bits) := by
      rw [show 2 ^ (64 - i * bv.bits % 64) * (w / 2 ^ (64 - i * bv.bits % 64))
            + v * 2 ^ (64 - i * bv.bits % 64 - bv.bits)
            + w % 2 ^ (64 - i * bv.bits % 64 - bv.bits)
          = 2 ^ (64 - i * bv.bits % 64 - bv.bits)
              * (2 ^ bv.bits * (w / 2 ^ (64 - i * bv.bits % 64)) + v)
            + w % 2 ^ (64 - i * bv.bits % 64 - bv.bits) from by
        rw [Nat.mul_add, ← Nat.mul_assoc, ← pow_add,
          show 64 - i * bv.bits % 64 - bv.bits + bv.bits = 64 - i * bv.bits % 64 from by omega,
          Nat.mul_comm (2 ^ (64 - i * bv.bits % 64 - bv.bits)) v]]
      rw [Nat.mul_add_mod, Nat.mod_mod_of_dvd _ dvd_rfl]
    have hNEWlt : 2 ^ (64 - i * bv.bits % 64) * (w / 2 ^ (64 - i * bv.bits % 64))
          + v * 2 ^ (64 - i * bv.bits % 64 - bv.bits)
          + w % 2 ^ (64 - i * bv.bits % 64 - bv.bits) < 2 ^ 64 := by
      have h1 : w / 2 ^ (64 - i * bv.bits % 64) < 2 ^ (64 - (64 - i * bv.bits % 64)) :=
        hqlt _ (by omega)
      have h2 : 2 ^ (64 - i * bv.bits % 64) * (w / 2 ^ (64 - i * bv.bits % 64) + 1)
          ≤ 2 ^ (64 - i * bv.bits % 64) * 2 ^ (64 - (64 - i * bv.bits % 64)) :=
        Nat.mul_le_mul_left _ (by omega)
      have h3 : (2:Nat) ^ (64 - i * bv.bits % 64) * 2 ^ (64 - (64 - i * bv.bits % 64)) = 2 ^ 64 := by
        rw [← pow_add]; congr 1; omega
      have h4 : 2 ^ (64 - i * bv.bits % 64) * (w / 2 ^ (64 - i * bv.bits % 64) + 1)
          = 2 ^ (64 - i * bv.bits % 64) * (w / 2 ^ (64 - i * bv.bits % 64))
            + 2 ^ (64 - i * bv.bits % 64) := by ring
      omega
    have hset : bv.set i v = some
        { bv with inner := (bv.inner.set (i * bv.bits / 64)
            ((w &&& (if i * bv.bits % 64 = 0 then 0
                else shl (shl 1 (i * bv.bits % 64) - 1) (64 - i * bv.bits % 64)))
              ||| shl v (64 - i * bv.bits % 64 - bv.bits)
              ||| (w &&& (shl 1 (64 - i * bv.bits % 64 - bv.bits) - 1)))) } := by
      simp only [BitsVec.set, W, if_neg (show ¬ i ≥ bv.units from by omega), if_neg hassert,
        hsome, if_pos hcross, setc, if_pos hidxL, Option.map_some']
    refine ⟨_, hset, ?_, rfl, rfl, rfl, ?_, ?_⟩
    · refine ⟨hb0, hb64, hr64, hmod, hge, ?_, ?_, ?_⟩
      · show (bv.inner.set _ _).length = _
        rw [List.length_set]
        exact hlen
      · intro x hx
        rcases mem_set_cases hx with hx | rfl
        · exact hwlt _ hx
        · rw [hNEW]; exact hNEWlt
      · show (bv.inner.set _ _).getD ((bv.inner.set _ _).length - 1) 0 % 2 ^ bv.leftover = 0
        rw [List.length_set]
        by_cases hlastw : i * bv.bits / 64 = bv.inner.length - 1
        · rw [← hlastw, getD_set_self _ hidxL, hNEW]
          have hposL : i * bv.bits + bv.bits + bv.leftover ≤ 64 * bv.inner.length := by omega
          have hshiftr : bv.leftover ≤ 64 - i * bv.bits % 64 - bv.bits := by
            have h64 : 64 * (i * bv.bits / 64) = 64 * (bv.inner.length - 1) := by rw [hlastw]
            omega
          apply mod_eq_zero_of_dvd
          apply Nat.dvd_add
          apply Nat.dvd_add
          · exact dvd_trans (pow_dvd_pow 2 (by omega)) (dvd_mul_right _ _)
          · exact dvd_trans (pow_dvd_pow 2 hshiftr) (dvd_mul_left _ _)
          · apply Nat.dvd_of_mod_eq_zero
            rw [Nat.mod_mod_of_dvd _ (pow_dvd_pow 2 hshiftr)]
            rw [hwdef, hlastw]
            exact hzero
        · rw [getD_set_ne _ hlastw]
          exact hzero
    · show rawAt _ bv.bits i = v
      rw [rawAt]
      simp only
      rw [if_pos hcross, getD_set_self _ hidxL, hNEW]
      rw [show 2 ^ (64 - i * bv.bits % 64) * (w / 2 ^ (64 - i * bv.bits % 64))
            + v * 2 ^ (64 - i * bv.bits % 64 - bv.bits)
            + w % 2 ^ (64 - i * bv.bits % 64 - bv.bits)
          = 2 ^ (64 - i * bv.bits % 64 - bv.bits)
              * (2 ^ bv.bits * (w / 2 ^ (64 - i * bv.bits % 64)) + v)
            + w % 2 ^ (64 - i * bv.bits % 64 - bv.bits) from by
        rw [Nat.mul_add, ← Nat.mul_assoc, ← pow_add,
          show 64 - i * bv.bits % 64 - bv.bits + bv.bits = 64 - i * bv.bits % 64 from by omega,
          Nat.mul_comm (2 ^ (64 - i * bv.bits % 64 - bv.bits)) v]]
      rw [div_add_lt hwmod, Nat.mul_add_mod]
      exact Nat.mod_eq_of_lt hv
    · intro j hj hji
      show rawAt _ bv.bits j = rawAt bv.inner bv.bits j
      apply rawAt_frame_mid bv.bits (i * bv.bits / 64) (64 - i * bv.bits % 64 - bv.bits)
        (64 - i * bv.bits % 64) ?_ ?_ ?_ ?_ hb0 hb64 (by omega)
      · intro k hk
        rw [getD_set_ne _ (Ne.symm hk)]
      · rw [getD_set_self _ hidxL, hNEW, hdivNEW]
      · rw [getD_set_self _ hidxL, hNEW, hmodNEW]
      · rcases Nat.lt_or_ge j i with hji2 | hji2
        · left
          have h1 : (j + 1) * bv.bits ≤ i * bv.bits := Nat.mul_le_mul_right _ hji2
          omega
        · right
          have h1 : (i + 1) * bv.bits ≤ j * bv.bits := Nat.mul_le_mul_right _ (by omega)
          have h2 : (i + 1) * bv.bits = i * bv.bits + bv.bits := Nat.succ_mul _ _
          omega
  · -- the element straddles two words
    have hoff1 : 1 ≤ i * bv.bits % 64 := by omega
    have hs1 : 1 ≤ bv.bits - (64 - i * bv.bits % 64) := by omega
    have hs63 : bv.bits - (64 - i * bv.bits % 64) < 64 := by omega
    have hposL0 : i * bv.bits + bv.bits + bv.leftover ≤ 64 * bv.inner.length := by omega
    have hidx1L : i * bv.bits / 64 + 1 < bv.inner.length := by
      have h1 : 64 * (i * bv.bits / 64 + 1) < i * bv.bits + bv.bits := by omega
      omega
    set w2 := bv.inner.getD (i * bv.bits / 64 + 1) 0 with hw2def
    have hw264 : w2 < 2 ^ 64 :=
      wf_word_lt ⟨hb0, hb64, hr64, hmod, hge, hlen, hwlt, hzero⟩ hidx1L
    have hsplitb : (2:Nat) ^ bv.bits
        = 2 ^ (bv.bits - (64 - i * bv.bits % 64)) * 2 ^ (64 - i * bv.bits % 64) := by
      rw [← pow_add]; congr 1; omega
    have hvdivlt : v / 2 ^ (bv.bits - (64 - i * bv.bits % 64)) < 2 ^ (64 - i * bv.bits % 64) := by
      apply Nat.div_lt_of_lt_mul
      rw [← hsplitb]
      exact hv
    have hX1 : w &&& notW (shl 1 (64 - i * bv.bits % 64) - 1)
          ||| shr v (bv.bits - (64 - i * bv.bits % 64))
        = 2 ^ (64 - i * bv.bits % 64) * (w / 2 ^ (64 - i * bv.bits % 64))
          + v / 2 ^ (bv.bits - (64 - i * bv.bits % 64)) := by
      rw [shl_one_sub_one (by omega), notW_mask (by omega), and_high_mask (by omega) hw64,
        shr_eq_of_lt hs63]
      exact or_eq_add (dvd_mul_right _ _) hvdivlt
    have hshl2 : shl (v &&& (shl 1 (bv.bits - (64 - i * bv.bits % 64)) - 1))
          (64 - (bv.bits - (64 - i * bv.bits % 64)))
        = v % 2 ^ (bv.bits - (64 - i * bv.bits % 64))
          * 2 ^ (64 - (bv.bits - (64 - i * bv.bits % 64))) := by
      rw [and_mask_eq_mod hs63]
      have h1 : 64 - (bv.bits - (64 - i * bv.bits % 64)) < 64 := by omega
      have h2 : v % 2 ^ (bv.bits - (64 - i * bv.bits % 64))
          * 2 ^ (64 - (bv.bits - (64 - i * bv.bits % 64))) < 2 ^ 64 := by
        calc v % 2 ^ (bv.bits - (64 - i * bv.bits % 64))
              * 2 ^ (64 - (bv.bits - (64 - i * bv.bits % 64)))
            < 2 ^ (bv.bits - (64 - i * bv.bits % 64))
              * 2 ^ (64 - (bv.bits - (64 - i * bv.bits % 64))) :=
              (Nat.mul_lt_mul_right (Nat.pos_pow_of_pos _ (by omega))).mpr
                (Nat.mod_lt _ (Nat.pos_pow_of_pos _ (by omega)))
          _ = 2 ^ 64 := by rw [← pow_add]; congr 1; omega
      exact shl_eq_exact h1 h2
    have hX2 : w2 &&& (shl 1 (64 - (bv.bits - (64 - i * bv.bits % 64))) - 1)
          ||| shl (v &&& (shl 1 (bv.bits - (64 - i * bv.bits % 64)) - 1))
            (64 - (bv.bits - (64 - i * bv.bits % 64)))
        = v % 2 ^ (bv.bits - (64 - i * bv.bits % 64))
            * 2 ^ (64 - (bv.bits - (64 - i * bv.bits % 64)))
          + w2 % 2 ^ (64 - (bv.bits - (64 - i * bv.bits % 64))) := by
      rw [and_mask_eq_mod (by omega), hshl2, Nat.lor_comm]
      exact or_eq_add (dvd_mul_left _ _) (Nat.mod_lt _ (Nat.pos_pow_of_pos _ (by omega)))
    have hl1len : (bv.inner.set (i * bv.bits / 64)
        (w &&& notW (shl 1 (64 - i * bv.bits % 64) - 1)
          ||| shr v (bv.bits - (64 - i * bv.bits % 64)))).length = bv.inner.length := by
      simp
    have hlt1 : i * bv.bits / 64 + 1 < (bv.inner.set (i * bv.bits / 64)
        (w &&& notW (shl 1 (64 - i * bv.bits % 64) - 1)
          ||| shr v (bv.bits - (64 - i * bv.bits % 64)))).length := by
      rw [hl1len]; exact hidx1L
    have hsome1 : (bv.inner.set (i * bv.bits / 64)
        (w &&& notW (shl 1 (64 - i * bv.bits % 64) - 1)
          ||| shr v (bv.bits - (64 - i * bv.bits % 64))))[i * bv.bits / 64 + 1]? = some w2 := by
      rw [getElem?_of_lt hlt1, getD_set_ne _ (by omega)]
    have hset : bv.set i v = some
        { bv with inner := ((bv.inner.set (i * bv.bits / 64)
            (w &&& notW (shl 1 (64 - i * bv.bits % 64) - 1)
              ||| shr v (bv.bits - (64 - i * bv.bits % 64)))).set (i * bv.bits / 64 + 1)
            (w2 &&& (shl 1 (64 - (bv.bits - (64 - i * bv.bits % 64))) - 1)
              ||| shl (v &&& (shl 1 (bv.bits - (64 - i * bv.bits % 64)) - 1))
                (64 - (bv.bits - (64 - i * bv.bits % 64))))) } := by
      simp only [BitsVec.set, W, if_neg (show ¬ i ≥ bv.units from by omega), if_neg hassert,
        hsome, if_neg (show ¬ 64 - i * bv.bits % 64 ≥ bv.bits from by omega), setc,
        if_pos hidxL, hsome1, if_pos hlt1, Option.map_some']
    have hX1div : (2 ^ (64 - i * bv.bits % 64) * (w / 2 ^ (64 - i * bv.bits % 64))
          + v / 2 ^ (bv.bits - (64 - i * bv.bits % 64))) / 2 ^ (64 - i * bv.bits % 64)
        = w / 2 ^ (64 - i * bv.bits % 64) := div_add_lt hvdivlt
    have hX2low : (v % 2 ^ (bv.bits - (64 - i * bv.bits % 64))
            * 2 ^ (64 - (bv.bits - (64 - i * bv.bits % 64)))
          + w2 % 2 ^ (64 - (bv.bits - (64 - i * bv.bits % 64))))
          % 2 ^ (64 - (bv.bits - (64 - i * bv.bits % 64)))
        = w2 % 2 ^ (64 - (bv.bits - (64 - i * bv.bits % 64))) := by
      rw [Nat.mul_comm, Nat.mul_add_mod, Nat.mod_mod_of_dvd _ dvd_rfl]
    have hX1lt : 2 ^ (64 - i * bv.bits % 64) * (w / 2 ^ (64 - i * bv.bits % 64))
          + v / 2 ^ (bv.bits - (64 - i * bv.bits % 64)) < 2 ^ 64 := by
      have h1 : w / 2 ^ (64 - i * bv.bits % 64) < 2 ^ (64 - (64 - i * bv.bits % 64)) :=
        hqlt _ (by omega)
      have h2 : 2 ^ (64 - i * bv.bits % 64) * (w / 2 ^ (64 - i * bv.bits % 64) + 1)
          ≤ 2 ^ (64 - i * bv.bits % 64) * 2 ^ (64 - (64 - i * bv.bits % 64)) :=
        Nat.mul_le_mul_left _ (by omega)
      have h3 : (2:Nat) ^ (64 - i * bv.bits % 64) * 2 ^ (64 - (64 - i * bv.bits % 64))
          = 2 ^ 64 := by rw [← pow_add]; congr 1; omega
      have h4 : 2 ^ (64 - i * bv.bits % 64) * (w / 2 ^ (64 - i * bv.bits % 64) + 1)
          = 2 ^ (64 - i * bv.bits % 64) * (w / 2 ^ (64 - i * bv.bits % 64))
            + 2 ^ (64 - i * bv.bits % 64) := by ring
      omega
    have hX2lt : v % 2 ^ (bv.bits - (64 - i * bv.bits % 64))
            * 2 ^ (64 - (bv.bits - (64 - i * bv.bits % 64)))
          + w2 % 2 ^ (64 - (bv.bits - (64 - i * bv.bits % 64))) < 2 ^ 64 := by
      have h1 : (v % 2 ^ (bv.bits - (64 - i * bv.bits % 64)) + 1)
            * 2 ^ (64 - (bv.bits - (64 - i * bv.bits % 64)))
          ≤ 2 ^ (bv.bits - (64 - i * bv.bits % 64))
            * 2 ^ (64 - (bv.bits - (64 - i * bv.bits % 64))) :=
        Nat.mul_le_mul_right _ (Nat.mod_lt _ (Nat.pos_pow_of_pos _ (by omega)))
      have h2 : (v % 2 ^ (bv.bits - (64 - i * bv.bits % 64)) + 1)
            * 2 ^ (64 - (bv.bits - (64 - i * bv.bits % 64)))
          = v % 2 ^ (bv.bits - (64 - i * bv.bits % 64))
              * 2 ^ (64 - (bv.bits - (64 - i * bv.bits % 64)))
            + 2 ^ (64 - (bv.bits - (64 - i * bv.bits % 64))) := Nat.succ_mul _ _
      have h3 : (2:Nat) ^ (bv.bits - (64 - i * bv.bits % 64))
          * 2 ^ (64 - (bv.bits - (64 - i * bv.bits % 64))) = 2 ^ 64 := by
        rw [← pow_add]; congr 1; omega
      have h4 : w2 % 2 ^ (64 - (bv.bits - (64 - i * bv.bits % 64)))
          < 2 ^ (64 - (bv.bits - (64 - i * bv.bits % 64))) :=
        Nat.mod_lt _ (Nat.pos_pow_of_pos _ (by omega))
      omega
    refine ⟨_, hset, ?_, rfl, rfl, rfl, ?_, ?_⟩
    · refine ⟨hb0, hb64, hr64, hmod, hge, ?_, ?_, ?_⟩
      · show ((bv.inner.set _ _).set _ _).length = _
        rw [List.length_set, List.length_set]
        exact hlen
      · intro x hx
        rcases mem_set_cases hx with hx | rfl
        · rcases mem_set_cases hx with hx | rfl
          · exact hwlt _ hx
          · rw [hX1]; exact hX1lt
        · rw [hX2]; exact hX2lt
      · show ((bv.inner.set _ _).set _ _).getD (((bv.inner.set _ _).set _ _).length - 1) 0
            % 2 ^ bv.leftover = 0
        rw [List.length_set, List.length_set]
        by_cases hlastw : i * bv.bits / 64 + 1 = bv.inner.length - 1
        · rw [← hlastw, getD_set_self _ hlt1, hX2]
          have hshr : bv.leftover ≤ 64 - (bv.bits - (64 - i * bv.bits % 64)) := by
            have h64 : 64 * (i * bv.bits / 64 + 1) = 64 * (bv.inner.length - 1) := by
              rw [hlastw]
            omega
          rw [← Nat.mod_mod_of_dvd _ (pow_dvd_pow 2 hshr), hX2low,
            Nat.mod_mod_of_dvd _ (pow_dvd_pow 2 hshr), hw2def, hlastw]
          exact hzero
        · rw [getD_set_ne _ hlastw, getD_set_ne _ (by omega)]
          exact hzero
    · show rawAt _ bv.bits i = v
      rw [rawAt]
      simp only
      rw [if_neg (by omega)]
      rw [getD_set_ne _ (by omega), getD_set_self _ hidxL]
      rw [getD_set_self _ hlt1]
      rw [hX1, hX2]
      rw [show (2 ^ (64 - i * bv.bits % 64) * (w / 2 ^ (64 - i * bv.bits % 64))
            + v / 2 ^ (bv.bits - (64 - i * bv.bits % 64))) % 2 ^ (64 - i * bv.bits % 64)
          = v / 2 ^ (bv.bits - (64 - i * bv.bits % 64)) from mod_add_lt hvdivlt]
      rw [show (v % 2 ^ (bv.bits - (64 - i * bv.bits % 64))
              * 2 ^ (64 - (bv.bits - (64 - i * bv.bits % 64)))
            + w2 % 2 ^ (64 - (bv.bits - (64 - i * bv.bits % 64))))
            / 2 ^ (64 - (bv.bits - (64 - i * bv.bits % 64)))
          = v % 2 ^ (bv.bits - (64 - i * bv.bits % 64)) from by
        rw [Nat.mul_comm]
        exact div_add_lt (Nat.mod_lt _ (Nat.pos_pow_of_pos _ (by omega)))]
      rw [Nat.mul_comm]
      exact Nat.div_add_mod v _
    · intro j hj hji
      show rawAt _ bv.bits j = rawAt bv.inner bv.bits j
      have hstep1 : rawAt ((bv.inner.set (i * bv.bits / 64)
            (w &&& notW (shl 1 (64 - i * bv.bits % 64) - 1)
              ||| shr v (bv.bits - (64 - i * bv.bits % 64)))).set (i * bv.bits / 64 + 1)
            (w2 &&& (shl 1 (64 - (bv.bits - (64 - i * bv.bits % 64))) - 1)
              ||| shl (v &&& (shl 1 (bv.bits - (64 - i * bv.bits % 64)) - 1))
                (64 - (bv.bits - (64 - i * bv.bits % 64))))) bv.bits j
          = rawAt (bv.inner.set (i * bv.bits / 64)
            (w &&& notW (shl 1 (64 - i * bv.bits % 64) - 1)
              ||| shr v (bv.bits - (64 - i * bv.bits % 64)))) bv.bits j := by
        apply rawAt_frame_mid bv.bits (i * bv.bits / 64 + 1)
          (64 - (bv.bits - (64 - i * bv.bits % 64))) 64 ?_ ?_ ?_ ?_ hb0 hb64 (by omega)
        · intro k hk
          rw [getD_set_ne _ (Ne.symm hk)]
        · rw [getD_set_self _ hlt1, hX2,
            getD_set_ne _ (by omega)]
          rw [Nat.div_eq_of_lt hX2lt, Nat.div_eq_of_lt hw264]
        · rw [getD_set_self _ hlt1, hX2,
            getD_set_ne _ (by omega), hX2low]
        · rcases Nat.lt_or_ge j i with hji2 | hji2
          · left
            have h1 : (j + 1) * bv.bits ≤ i * bv.bits := Nat.mul_le_mul_right _ hji2
            omega
          · right
            have h1 : (i + 1) * bv.bits ≤ j * bv.bits := Nat.mul_le_mul_right _ (by omega)
            have h2 : (i + 1) * bv.bits = i * bv.bits + bv.bits := Nat.succ_mul _ _
            omega
      rw [hstep1]
      apply rawAt_frame_mid bv.bits (i * bv.bits / 64) 0 (64 - i * bv.bits % 64)
        ?_ ?_ ?_ ?_ hb0 hb64 (by omega)
      · intro k hk
        rw [getD_set_ne _ (Ne.symm hk)]
      · rw [getD_set_self _ hidxL, hX1, hX1div]
      · rw [pow_zero, Nat.mod_one, Nat.mod_one]
      · rcases Nat.lt_or_ge j i with hji2 | hji2
        · left
          have h1 : (j + 1) * bv.bits ≤ i * bv.bits := Nat.mul_le_mul_right _ hji2
          omega
        · right
          have h1 : (i + 1) * bv.bits ≤ j * bv.bits := Nat.mul_le_mul_right _ (by omega)
          have h2 : (i + 1) * bv.bits = i * bv.bits + bv.bits := Nat.succ_mul _ _
          omega

end Helix

namespace Helix

theorem mapM_eq_some {α : Type} (f : α → Option Nat) (g : α → Nat) :
    ∀ l : List α, (∀ x ∈ l, f x = some (g x)) → l.mapM f = some (l.map g)
  | [], _ => rfl
  | a :: l, h => by
    rw [List.mapM_cons, h a (by simp), mapM_eq_some f g l (fun x hx => h x (by simp [hx]))]
    rfl

theorem iter_collect_aux {bv : BitsVec} (hwf : Wf bv) :
    ∀ (f s : Nat), s + f = bv.units →
      Iter.collect f { vec := bv, start := s, stop := bv.units }
        = some ((List.range' s f).map (rawElem bv))
  | 0, s, hs => by
    rw [Iter.collect, Iter.next, if_neg (show ¬ s < bv.units by omega)]
    rfl
  | f + 1, s, hs => by
    rw [Iter.collect, Iter.next, if_pos (show s < bv.units by omega)]
    simp only
    rw [get_eq_rawElem hwf (by omega), iter_collect_aux hwf f (s + 1) (by omega)]
    rfl

/-- Driving the iterator of a well-formed vector yields exactly its abstract
contents. -/
theorem iter_collect {bv : BitsVec} (hwf : Wf bv) :
    Iter.collect bv.units bv.iter = some ((List.range bv.units).map (rawElem bv)) := by
  have h := iter_collect_aux hwf bv.units 0 (by omega)
  rw [BitsVec.iter]
  rw [h, List.range_eq_range']

theorem get_list_eq {bv : BitsVec} (hwf : Wf bv) :
    (List.range bv.units).mapM (fun i => bv.get i)
      = some ((List.range bv.units).map (rawElem bv)) := by
  apply mapM_eq_some
  intro x hx
  exact get_eq_rawElem hwf (by simpa using hx)

end Helix

namespace Helix

/-- C4: for every well-formed packed vector and every value `v < 2^bits`:
`push v` succeeds, grows the length by one and makes `get (len - 1)` return
`v`; for every valid index `i`, `set i v` succeeds, keeps the length, makes
`get i` return `v` and leaves `get j` unchanged at every other valid index
`j`; and driving the iterator yields exactly the sequence of values that
`get 0, get 1, …, get (len - 1)` return. -/
theorem C4_packed_push_set_get_iter {bv : BitsVec} (hwf : Wf bv) {v : Nat}
    (hv : v < 2 ^ bv.bits) :
    (∃ bv', bv.push v = some bv' ∧ bv'.len = bv.len + 1 ∧
      bv'.get (bv'.len - 1) = some v) ∧
    (∀ i, i < bv.len → ∃ bv', bv.set i v = some bv' ∧ bv'.len = bv.len ∧
      bv'.get i = some v ∧ ∀ j, j < bv.len → j ≠ i → bv'.get j = bv.get j) ∧
    Iter.collect bv.len bv.iter = (List.range bv.len).mapM (fun i => bv.get i) := by
  refine ⟨?_, ?_, ?_⟩
  · obtain ⟨bv', hpush, hwf', hu, hb, hlo, hframe, hlast⟩ := push_spec hwf hv
    refine ⟨bv', hpush, by rw [BitsVec.len, BitsVec.len, hu], ?_⟩
    have hlen : bv'.len - 1 = bv.units := by rw [BitsVec.len, hu]; omega
    rw [hlen, get_eq_rawElem hwf' (by rw [hu]; omega), hlast]
  · intro i hi
    obtain ⟨bv', hset, hwf', hu, hb, hlo, hval, hothers⟩ := set_spec hwf hi hv
    refine ⟨bv', hset, by rw [BitsVec.len, BitsVec.len, hu], ?_, ?_⟩
    · rw [get_eq_rawElem hwf' (by rw [hu]; exact hi), hval]
    · intro j hj hne
      rw [get_eq_rawElem hwf' (by rw [hu]; exact hj), get_eq_rawElem hwf hj,
        hothers j hj hne]
  · rw [BitsVec.len, iter_collect hwf, get_list_eq hwf]

/-- Witness for C4 at the concrete vector `[5, 9, 3]` packed with width 4 and
the value `7`. -/
theorem C4_witness :
    Wf sampleVec ∧ 7 < 2 ^ sampleVec.bits ∧
    ((∃ bv', sampleVec.push 7 = some bv' ∧ bv'.len = sampleVec.len + 1 ∧
        bv'.get (bv'.len - 1) = some 7) ∧
     (∀ i, i < sampleVec.len → ∃ bv', sampleVec.set i 7 = some bv' ∧ bv'.len = sampleVec.len ∧
        bv'.get i = some 7 ∧ ∀ j, j < sampleVec.len → j ≠ i → bv'.get j = sampleVec.get j) ∧
     Iter.collect sampleVec.len sampleVec.iter
        = (List.range sampleVec.len).mapM (fun i => sampleVec.get i)) :=
  ⟨by unfold Wf; decide, by decide,
   C4_packed_push_set_get_iter (by unfold Wf; decide) (by decide)⟩

end Helix

namespace Helix

set_option maxRecDepth 40000 in
/-- C1: the claim fails — the FM-index cannot even be built for every byte
sequence: for `S = "A"` construction panics (models as `none`), so no pattern
can be counted or located, although the backward search does return the exact
occurrence positions on inputs where construction succeeds (here
`S = [65, 66, 65]`: `count "A" = 2` and `search "A" = {0, 2}`). -/
theorem C1_fmindex_unbuildable :
    FMIndex.new [65] = none ∧
    (FMIndex.new [65, 66, 65]).bind (fun f => f.count [65]) = some 2 ∧
    (FMIndex.new [65, 66, 65]).bind (fun f => f.search [65]) = some [2, 0] :=
  ⟨rfl, rfl, rfl⟩

set_option maxRecDepth 40000 in
/-- C2: the claim fails — `ibwt (bwt S) = S` does not hold for every non-empty
`S`, because `bwt` panics (models as `none`) already for `S = "A"`; the
round trip does hold on inputs where `bwt` succeeds (here `S = [65, 66, 65]`). -/
theorem C2_bwt_roundtrip_panics :
    bwt [65] = none ∧ (bwt [65, 66, 65]).bind ibwt = some [65, 66, 65] :=
  ⟨rfl, rfl⟩

set_option maxRecDepth 40000 in
/-- C3: the claim fails — `suffix_array` does not return a suffix array for
every byte sequence: for `S = "A"` it panics (models as `none`); on inputs
where it succeeds it does return the sentinel-first lexicographic order (here
`S = [65, 66, 65]` with suffix order `"" < "A" < "ABA" < "BA"`). -/
theorem C3_suffix_array_panics :
    suffix_array [65] = none ∧ suffix_array [65, 66, 65] = some [3, 2, 0, 1] :=
  ⟨rfl, rfl⟩

/-- C8: on the empty input, `suffix_array`, `bwt`, `ibwt` and FM-index
construction all panic (model as `none`) instead of returning an empty
result. -/
theorem C8_empty_input_panics :
    suffix_array [] = none ∧ bwt [] = none ∧ ibwt [] = none ∧
    FMIndex.new [] = none :=
  ⟨rfl, rfl, rfl, rfl⟩

/-- C7: `BitsVec::new w` succeeds exactly when `w < 64` — including `w = 0`,
which the claim excludes — and fails (asserts) when `64 ≤ w`; on success the
result is the empty vector of width `w`. -/
theorem C7_new_width_check :
    (∀ w, w < 64 → BitsVec.new w
        = some { inner := [0], units := 0, bits := w, leftover := 64 }) ∧
    BitsVec.new 0 = some { inner := [0], units := 0, bits := 0, leftover := 64 } ∧
    (∀ w, 64 ≤ w → BitsVec.new w = none) := by
  refine ⟨?_, rfl, ?_⟩
  · intro w hw
    rw [BitsVec.new, if_pos (show w < W by exact hw)]
    rfl
  · intro w hw
    rw [BitsVec.new, if_neg (show ¬ w < W by exact Nat.not_lt.mpr hw)]

/-- Witness for C7 at the concrete widths 5 and 64. -/
theorem C7_witness :
    (5 < 64 ∧ BitsVec.new 5
        = some { inner := [0], units := 0, bits := 5, leftover := 64 }) ∧
    (64 ≤ 64 ∧ BitsVec.new 64 = none) :=
  ⟨⟨by decide, C7_new_width_check.1 5 (by decide)⟩,
   ⟨by decide, C7_new_width_check.2.2 64 (by decide)⟩⟩

end Helix

namespace Helix

set_option maxRecDepth 40000 in
/-- C10: `truncate n` on a well-formed vector succeeds exactly when `n` is
strictly smaller than the current length (truncating to the current length is
rejected); `clear` is `truncate 0`, so `clear` on an empty vector panics
(models as `none`), and `clear` after a successful `clear` always panics —
`clear` is not idempotent. -/
theorem C10_truncate_clear {bv : BitsVec} (hwf : Wf bv) (n : Nat) :
    ((∃ bv', bv.truncate n = some bv') ↔ n < bv.units) ∧
    bv.clear = bv.truncate 0 ∧
    (bv.units = 0 → bv.clear = none) ∧
    (∀ bv', bv.clear = some bv' → bv'.clear = none) := by
  refine ⟨⟨?_, ?_⟩, rfl, ?_, ?_⟩
  · rintro ⟨bv', h⟩
    by_contra hn
    rw [BitsVec.truncate, if_pos (by omega)] at h
    cases h
  · intro hn
    have hne : ¬ n ≥ bv.units := by omega
    simp only [BitsVec.truncate, if_neg hne]
    by_cases hu : n * bv.bits % W > 0
    · simp only [if_pos hu]
      have htot := wf_total_eq hwf
      have hmul : n * bv.bits ≤ bv.units * bv.bits :=
        Nat.mul_le_mul_right _ (le_of_lt hn)
      have hlen : n * bv.bits / W + 1 - 1 < (bv.inner.take (n * bv.bits / W + 1)).length := by
        rw [List.length_take]
        simp only [W] at hu ⊢
        omega
      rw [getElem?_of_lt hlen]
      exact ⟨_, rfl⟩
    · simp only [if_neg hu]
      exact ⟨_, rfl⟩
  · intro h0
    rw [BitsVec.clear, BitsVec.truncate, if_pos (by omega)]
  · intro bv' h
    rw [BitsVec.clear, BitsVec.truncate] at h
    by_cases h0 : 0 ≥ bv.units
    · rw [if_pos h0] at h
      cases h
    · rw [if_neg h0] at h
      simp only [Nat.zero_mul, Nat.zero_div, Nat.zero_mod, gt_iff_lt,
        Nat.lt_irrefl, if_false, List.take_zero, List.nil_append] at h
      cases h
      rfl

/-- Witness for C10 at the concrete vector `[5, 9, 3]` packed with width 4,
truncated to length 1. -/
theorem C10_witness :
    Wf sampleVec ∧
    (((∃ bv', sampleVec.truncate 1 = some bv') ↔ 1 < sampleVec.units) ∧
     sampleVec.clear = sampleVec.truncate 0 ∧
     (sampleVec.units = 0 → sampleVec.clear = none) ∧
     (∀ bv', sampleVec.clear = some bv' → bv'.clear = none)) :=
  ⟨by unfold Wf; decide, C10_truncate_clear (by unfold Wf; decide) 1⟩

end Helix

namespace Helix

set_option maxRecDepth 100000 in
/-- C5: whenever `suffix_array` returns a suffix array of length `n + 1` with
entries bounded by `n`, the forward transform succeeds, has length `n + 1`,
and emits at each index `k` the byte `0` when `SA[k] = 0` and `S[SA[k] - 1]`
otherwise; in particular on the 50-byte test string it produces the expected
transform. -/
theorem C5_bwt_emission {input sa : List Nat} (hsa : suffix_array input = some sa)
    (hlen : sa.length = input.length + 1) (hbound : ∀ i ∈ sa, i ≤ input.length) :
    (∃ out, bwt input = some out ∧ out.length = input.length + 1 ∧
       ∀ k, k < input.length + 1 →
         out.getD k 0 = if sa.getD k 0 = 0 then 0
                        else input.getD (sa.getD k 0 - 1) 0) ∧
    bwt testInput = some testBWT := by
  refine ⟨?_, by decide⟩
  have hmap : sa.mapM (fun i => if i = 0 then some 0 else input[i - 1]?)
      = some (sa.map (fun i => if i = 0 then 0 else input.getD (i - 1) 0)) := by
    apply mapM_eq_some
    intro i hi
    by_cases h0 : i = 0
    · rw [if_pos h0, if_pos h0]
    · rw [if_neg h0, if_neg h0]
      exact getElem?_of_lt (by have := hbound i hi; omega)
  refine ⟨sa.map (fun i => if i = 0 then 0 else input.getD (i - 1) 0), ?_, ?_, ?_⟩
  · rw [bwt, hsa]
    exact hmap
  · rw [List.length_map, hlen]
  · intro k hk
    have hk' : k < sa.length := by omega
    rw [List.getD_eq_getElem _ 0 (by rw [List.length_map]; exact hk'),
      List.getElem_map, List.getD_eq_getElem _ 0 hk']

set_option maxRecDepth 40000 in
/-- Witness for C5 at the input `[65, 66, 65]` with suffix array
`[3, 2, 0, 1]`. -/
theorem C5_witness :
    suffix_array [65, 66, 65] = some [3, 2, 0, 1] ∧
    [3, 2, 0, 1].length = [65, 66, 65].length + 1 ∧
    (∀ i ∈ [3, 2, 0, 1], i ≤ [65, 66, 65].length) ∧
    ((∃ out, bwt [65, 66, 65] = some out ∧ out.length = [65, 66, 65].length + 1 ∧
        ∀ k, k < [65, 66, 65].length + 1 →
          out.getD k 0 = if [3, 2, 0, 1].getD k 0 = 0 then 0
                         else [65, 66, 65].getD ([3, 2, 0, 1].getD k 0 - 1) 0) ∧
     bwt testInput = some testBWT) :=
  ⟨rfl, by decide, by decide, C5_bwt_emission rfl (by decide) (by decide)⟩

end Helix

namespace Helix

theorem getD_replicate0 (k m : Nat) : (List.replicate k 0).getD m 0 = 0 := by
  by_cases h : m < k
  · rw [List.getD_eq_getElem _ _ (by simpa using h), List.getElem_replicate]
  · exact List.getD_eq_default _ _ (by simpa using Nat.le_of_not_lt h)

theorem getD_append_right' {l l' : List Nat} {n : Nat} (h : l.length ≤ n) :
    (l ++ l').getD n 0 = l'.getD (n - l.length) 0 := by
  rcases Nat.lt_or_ge n (l.length + l'.length) with hlt | hge
  · rw [List.getD_eq_getElem _ _ (by simpa using hlt),
      List.getD_eq_getElem _ _ (by omega), List.getElem_append_right h]
  · rw [List.getD_eq_default _ _ (by simpa using hge),
      List.getD_eq_default _ _ (by omega)]

/-- The extend-on-demand counter: the returned count is the old count plus
one, the updated slot holds it, other slots are unchanged, and the map is
grown to cover the inserted value. -/
theorem insertVec_spec (map : List Nat) (v : Nat) :
    ∃ map' value, insertVec map v = (map', value) ∧
      value = map.getD v 0 + 1 ∧
      map'.getD v 0 = map.getD v 0 + 1 ∧
      (∀ c, c ≠ v → map'.getD c 0 = map.getD c 0) ∧
      map'.length = max map.length (v + 1) := by
  refine ⟨_, _, rfl, ?_, ?_, ?_, ?_⟩
  · by_cases h : map.length ≤ v
    · rw [if_pos h, getD_append_right' h, getD_replicate0,
        List.getD_eq_default _ _ h]
    · rw [if_neg h]
  · by_cases h : map.length ≤ v
    · rw [if_pos h]
      have hget : (map ++ List.replicate (v + 1 - map.length) 0).getD v 0 = 0 := by
        rw [getD_append_right' h, getD_replicate0]
      have hlen : v < (map ++ List.replicate (v + 1 - map.length) 0).length := by
        rw [List.length_append, List.length_replicate]; omega
      rw [hget, getD_set_self _ hlen, List.getD_eq_default _ _ h]
    · rw [if_neg h]
      exact getD_set_self _ (by omega)
  · intro c hc
    by_cases h : map.length ≤ v
    · rw [if_pos h, getD_set_ne _ (fun he => hc he.symm)]
      by_cases hcl : c < map.length
      · exact getD_append_left hcl
      · rw [getD_append_right' (by omega), getD_replicate0,
          List.getD_eq_default _ _ (by omega)]
    · rw [if_neg h, getD_set_ne _ (fun he => hc he.symm)]
  · by_cases h : map.length ≤ v
    · rw [if_pos h]
      rw [List.length_set, List.length_append, List.length_replicate]
      omega
    · rw [if_neg h, List.length_set]
      omega

theorem countP_lt_succ (l : List Nat) (c : Nat) :
    l.countP (fun x => decide (x < c + 1))
      = l.countP (fun x => decide (x < c)) + l.count c := by
  induction l with
  | nil => simp
  | cons a t ih =>
    simp only [List.countP_cons, List.count_cons, ih]
    by_cases h1 : a < c + 1 <;> by_cases h2 : a < c <;> by_cases h3 : a = c <;>
      simp [h1, h2, h3] <;> omega

theorem countP_lt_add_count_le (l : List Nat) (ch : Nat) :
    l.countP (fun x => decide (x < ch)) + l.count ch ≤ l.length := by
  induction l with
  | nil => simp
  | cons a t ih =>
    simp only [List.countP_cons, List.count_cons, List.length_cons]
    by_cases h1 : a < ch <;> by_cases h2 : a = ch <;>
      simp [h1, h2] <;> omega

end Helix

namespace Helix

/-- The frequency/forward-count loop: the final map adds the occurrence counts
of the processed bytes, the count slots before `idx` are untouched, and slot
`idx + j` receives the running count of byte `l[j]` just after its insertion. -/
theorem fmCountLoop_spec :
    ∀ (l map count : List Nat) (idx : Nat), idx + l.length ≤ count.length →
      ∃ map₂ count₂,
        fmCountLoop l (map, count, idx) = some (map₂, count₂, idx + l.length) ∧
        (∀ c, map₂.getD c 0 = map.getD c 0 + l.count c) ∧
        count₂.length = count.length ∧
        map.length ≤ map₂.length ∧
        (∀ b ∈ l, b < map₂.length) ∧
        (∀ j, j < idx → count₂.getD j 0 = count.getD j 0) ∧
        (∀ j, j < l.length →
          count₂.getD (idx + j) 0
            = map.getD (l.getD j 0) 0 + (l.take j).count (l.getD j 0) + 1)
  | [], map, count, idx, h =>
    ⟨map, count, by simp [fmCountLoop], fun c => by simp,
     rfl, Nat.le_refl _, by simp, fun j _ => rfl, fun j hj => by simp at hj⟩
  | c :: rest, map, count, idx, h => by
    obtain ⟨map', value, heq, hval, hself, hother, hlen⟩ := insertVec_spec map c
    have hlen' : map.length ≤ map'.length ∧ c < map'.length := by
      rw [Nat.max_def] at hlen; split at hlen <;> omega
    have hidx : idx < count.length := by
      simp only [List.length_cons] at h; omega
    have hsetc : setc count idx value = some (count.set idx value) := by
      rw [setc, if_pos hidx]
    obtain ⟨map₂, count₂, hrec, hmap, hclen, hmlen, hmem, hframe, hslot⟩ :=
      fmCountLoop_spec rest map' (count.set idx value) (idx + 1)
        (by simp only [List.length_set]; simp only [List.length_cons] at h; omega)
    refine ⟨map₂, count₂, ?_, ?_, ?_, ?_, ?_, ?_, ?_⟩
    · simp only [fmCountLoop, heq, hsetc]
      rw [hrec]
      simp only [List.length_cons]
      rw [(by omega : idx + (rest.length + 1) = idx + 1 + rest.length)]
    · intro c'
      rw [hmap c']
      by_cases hc : c' = c
      · subst hc
        rw [hself, List.count_cons]
        simp only [beq_iff_eq, eq_self_iff_true, if_true]
        omega
      · rw [hother c' hc, List.count_cons]
        simp only [beq_iff_eq]
        rw [if_neg (fun he => hc he.symm)]
        omega
    · rw [hclen, List.length_set]
    · omega
    · intro b hb
      rcases List.mem_cons.mp hb with hb | hb
      · subst hb
        omega
      · exact hmem b hb
    · intro j hj
      rw [hframe j (by omega), getD_set_ne _ (by omega)]
    · intro j hj
      match j with
      | 0 =>
        rw [Nat.add_zero, hframe idx (by omega), getD_set_self _ hidx, hval]
        show map.getD c 0 + 1 = map.getD c 0 + List.count c List.nil + 1
        rw [List.count_nil]
      | j' + 1 =>
        have hj' : j' < rest.length := by
          simp only [List.length_cons] at hj; omega
        rw [(by omega : idx + (j' + 1) = idx + 1 + j'), hslot j' hj']
        have hgd : (c :: rest).getD (j' + 1) 0 = rest.getD j' 0 := rfl
        rw [hgd]
        have htake : ((c :: rest).take (j' + 1)).count (rest.getD j' 0)
            = (if c = rest.getD j' 0 then 1 else 0)
              + (rest.take j').count (rest.getD j' 0) := by
          rw [List.take_succ_cons, List.count_cons]
          simp only [beq_iff_eq]
          by_cases hcb : c = rest.getD j' 0
          · rw [if_pos hcb]
            omega
          · rw [if_neg hcb]
            omega
        rw [htake]
        by_cases hcb : rest.getD j' 0 = c
        · rw [hcb, hself, if_pos rfl]
          omega
        · rw [hother _ hcb, if_neg (fun he => hcb he.symm)]
          omega

/-- `genOccLoop` keeps the length. -/
theorem genOccLoop_length : ∀ (map : List Nat) (idx : Nat),
    (genOccLoop map idx).length = map.length
  | [], _ => rfl
  | a :: rest, idx => by
    rw [genOccLoop, List.length_cons, List.length_cons,
      genOccLoop_length rest (idx + a)]

/-- `genOccLoop` replaces entry `c` with the starting offset plus the sum of
the entries before it. -/
theorem genOccLoop_getD : ∀ (map : List Nat) (idx c : Nat), c < map.length →
    (genOccLoop map idx).getD c 0 = idx + (map.take c).sum
  | [], _, _, h => by simp at h
  | a :: rest, idx, 0, _ => by simp [genOccLoop]
  | a :: rest, idx, c + 1, h => by
    rw [genOccLoop]
    have hstep : (idx :: genOccLoop rest (idx + a)).getD (c + 1) 0
        = (genOccLoop rest (idx + a)).getD c 0 := rfl
    rw [hstep, genOccLoop_getD rest (idx + a) c (by simpa using Nat.lt_of_succ_lt_succ h),
      List.take_succ_cons, List.sum_cons]
    omega

/-- The prefix sums of a table of per-byte counts are the `<`-rank counts. -/
theorem sum_take_count (l : List Nat) (m : List Nat)
    (hm : ∀ j, m.getD j 0 = l.count j) :
    ∀ c, c ≤ m.length → (m.take c).sum = l.countP (fun x => decide (x < c))
  | 0, _ => by
    rw [List.take_zero, List.sum_nil]
    symm
    rw [List.countP_eq_zero]
    intro x _
    simp
  | c + 1, hc => by
    rw [List.sum_take_succ m c (by omega), countP_lt_succ,
      ← sum_take_count l m hm c (by omega)]
    have hg : m[c] = m.getD c 0 := (List.getD_eq_getElem m 0 (by omega)).symm
    rw [hg, hm c]

end Helix

namespace Helix

/-- The reverse scan finds nothing when the byte is absent. -/
theorem findRevLoop_absent {data : List Nat} {ch : Nat} (hch : ch ∉ data) :
    ∀ k, k ≤ data.length → findRevLoop data ch k = some none
  | 0, _ => rfl
  | k + 1, hk => by
    have hlt : k < data.length := by omega
    have hmem : data.getD k 0 ∈ data := by
      rw [List.getD_eq_getElem _ _ hlt]
      exact List.getElem_mem _
    simp only [findRevLoop, getElem?_of_lt hlt]
    rw [if_neg (show ¬ data.getD k 0 = ch from fun he => hch (he ▸ hmem))]
    exact findRevLoop_absent hch k (by omega)

/-- Within bounds, the reverse scan either reports a miss or a hit below the
start index carrying the scanned byte. -/
theorem findRevLoop_some (data : List Nat) (ch : Nat) :
    ∀ k, k ≤ data.length →
      findRevLoop data ch k = some none ∨
      ∃ i, i < k ∧ data.getD i 0 = ch ∧ findRevLoop data ch k = some (some i)
  | 0, _ => Or.inl rfl
  | k + 1, hk => by
    have hlt : k < data.length := by omega
    by_cases hb : data.getD k 0 = ch
    · refine Or.inr ⟨k, ?_, hb, ?_⟩
      · omega
      · simp only [findRevLoop, getElem?_of_lt hlt]
        rw [if_pos hb]
    · rcases findRevLoop_some data ch k (by omega) with h | ⟨i, hi, hd, h⟩
      · refine Or.inl ?_
        simp only [findRevLoop, getElem?_of_lt hlt]
        rw [if_neg hb, h]
      · refine Or.inr ⟨i, ?_, hd, ?_⟩
        · omega
        · simp only [findRevLoop, getElem?_of_lt hlt]
          rw [if_neg hb, h]

/-- The frequency/forward-count pass of `new_from_bwt` from the initial state:
the map holds the byte frequencies and each count slot the running count of
its byte. -/
theorem fmCount_init (d : List Nat) :
    ∃ map₂ count₂,
      fmCountLoop d ([], List.replicate d.length 0, 0) = some (map₂, count₂, d.length) ∧
      (∀ c, map₂.getD c 0 = d.count c) ∧
      count₂.length = d.length ∧
      (∀ j, j < d.length → count₂.getD j 0 = (d.take (j + 1)).count (d.getD j 0)) := by
  obtain ⟨map₂, count₂, heq, hmap, hclen, _, hmem, _, hslot⟩ :=
    fmCountLoop_spec d [] (List.replicate d.length 0) 0 (by simp)
  refine ⟨map₂, count₂, by simpa using heq, fun c => by simpa using hmap c,
    by simpa using hclen, ?_⟩
  intro j hj
  have hs := hslot j hj
  simp only [Nat.zero_add, List.getD_nil] at hs
  have htake : (d.take (j + 1)).count (d.getD j 0)
      = (d.take j).count (d.getD j 0) + 1 := by
    rw [List.take_succ, getElem?_of_lt hj]
    rw [List.count_append]
    simp
  rw [htake, hs]

/-- Structure of a successfully built FM-index: the data are the input BWT,
the cache holds running byte counts, and the occurrence map holds the
`<`-rank counts. -/
theorem new_from_bwt_fields {d : List Nat} {fm : FMIndex}
    (hfm : FMIndex.new_from_bwt d = some fm) :
    fm.data = d ∧ fm.cache.length = d.length ∧
    (∀ j, j < d.length → fm.cache.getD j 0 = (d.take (j + 1)).count (d.getD j 0)) ∧
    (∀ c, fm.occ_map.getD c 0 ≤ d.countP (fun x => decide (x < c))) ∧
    (∀ c, c < fm.occ_map.length → fm.occ_map.getD c 0 = d.countP (fun x => decide (x < c))) := by
  obtain ⟨map₂, count₂, heq, hmap, hclen, hslot⟩ := fmCount_init d
  rw [FMIndex.new_from_bwt] at hfm
  rw [heq] at hfm
  simp only [Option.bind_eq_bind, Option.some_bind] at hfm
  cases hlf : lfLoop d.enum (count₂, generate_occurrence_index map₂) with
  | none => rw [hlf] at hfm; cases hfm
  | some p =>
    obtain ⟨lf, m2⟩ := p
    rw [hlf] at hfm
    simp only [Option.bind_eq_bind, Option.some_bind] at hfm
    cases hl0 : lf[0]? with
    | none => rw [hl0] at hfm; cases hfm
    | some i0 =>
      rw [hl0] at hfm
      simp only [Option.bind_eq_bind, Option.some_bind] at hfm
      cases hwalk : fmWalkLoop d.length (d.length - 1) i0 (d.length - 1) (lf.set 0 0) with
      | none => rw [hwalk] at hfm; cases hfm
      | some lf2 =>
        rw [hwalk] at hfm
        simp only [Option.bind_eq_bind, Option.some_bind] at hfm
        cases hfm
        have hocc : ∀ c, c < map₂.length →
            (generate_occurrence_index map₂).getD c 0
              = d.countP (fun x => decide (x < c)) := by
          intro c hc
          rw [generate_occurrence_index, genOccLoop_getD map₂ 0 c hc,
            sum_take_count d map₂ hmap c (by omega)]
          omega
        refine ⟨rfl, hclen, hslot, ?_, ?_⟩
        · intro c
          by_cases hc : c < map₂.length
          · rw [hocc c hc]
          · have hlen : (generate_occurrence_index map₂).length ≤ c := by
              rw [generate_occurrence_index, genOccLoop_length]
              omega
            rw [List.getD_eq_default _ _ hlen]
            exact Nat.zero_le _
        · intro c hc
          rw [generate_occurrence_index, genOccLoop_length] at hc
          exact hocc c hc

end Helix

namespace Helix

/-- `nearest` at a byte absent from the data returns the occurrence-map entry
(or 0 when the entry is missing), regardless of the position. -/
theorem nearest_absent {fm : FMIndex} (ch k : Nat) (hch : ch ∉ fm.data)
    (hk : k ≤ fm.data.length) :
    fm.nearest k ch = some (fm.occ_map.getD ch 0) := by
  cases hocc : fm.occ_map[ch]? with
  | none =>
    have hlen : fm.occ_map.length ≤ ch := List.getElem?_eq_none_iff.mp hocc
    simp only [FMIndex.nearest, hocc]
    rw [List.getD_eq_default _ _ hlen]
  | some res =>
    obtain ⟨hlt, helem⟩ := List.getElem?_eq_some_iff.mp hocc
    have hgd : fm.occ_map.getD ch 0 = res := by
      rw [List.getD_eq_getElem _ _ hlt, helem]
    by_cases hres : res > 0
    · simp only [FMIndex.nearest, hocc, if_pos hres,
        findRevLoop_absent hch k hk]
      rw [hgd, Nat.add_zero]
    · simp only [FMIndex.nearest, hocc, if_neg hres]
      rw [hgd, (by omega : res = 0)]

/-- On an index built by `new_from_bwt`, `nearest` never panics within bounds
and its value never exceeds the data length. -/
theorem nearest_bounded {d : List Nat} {fm : FMIndex}
    (hfm : FMIndex.new_from_bwt d = some fm) (k ch : Nat)
    (hk : k ≤ fm.data.length) :
    ∃ v, fm.nearest k ch = some v ∧ v ≤ fm.data.length := by
  obtain ⟨hdata, hclen, hcache, hocc_le, -⟩ := new_from_bwt_fields hfm
  subst hdata
  cases hocc : fm.occ_map[ch]? with
  | none =>
    refine ⟨0, ?_, Nat.zero_le _⟩
    simp only [FMIndex.nearest, hocc]
  | some res =>
    obtain ⟨hlt, helem⟩ := List.getElem?_eq_some_iff.mp hocc
    have hgd : fm.occ_map.getD ch 0 = res := by
      rw [List.getD_eq_getElem _ _ hlt, helem]
    have hres_le : res ≤ fm.data.countP (fun x => decide (x < ch)) := hgd ▸ hocc_le ch
    by_cases hres : res > 0
    · rcases findRevLoop_some fm.data ch k hk with hfind | ⟨i, hik, hdi, hfind⟩
      · refine ⟨res + 0, ?_, ?_⟩
        · simp only [FMIndex.nearest, hocc, if_pos hres, hfind]
        · have := List.countP_le_length (l := fm.data) (fun x => decide (x < ch))
          omega
      · have hi : i < fm.data.length := by omega
        have hcget : fm.cache[i]? = some (fm.cache.getD i 0) :=
          getElem?_of_lt (by omega)
        refine ⟨res + fm.cache.getD i 0, ?_, ?_⟩
        · simp only [FMIndex.nearest, hocc, if_pos hres, hfind, hcget]
        · have hcv : fm.cache.getD i 0 = (fm.data.take (i + 1)).count ch := by
            rw [hcache i hi, hdi]
          have hcount_le : (fm.data.take (i + 1)).count ch ≤ fm.data.count ch :=
            (List.take_sublist _ _).count_le ch
          have hsum := countP_lt_add_count_le fm.data ch
          omega
    · refine ⟨0, ?_, Nat.zero_le _⟩
      simp only [FMIndex.nearest, hocc, if_neg hres]

/-- The backward-search loop hits an empty range as soon as it consumes a
byte that is absent from the data. -/
theorem rangeLoop_absent {d : List Nat} {fm : FMIndex}
    (hfm : FMIndex.new_from_bwt d = some fm) {ch : Nat} (hch : ch ∉ fm.data) :
    ∀ q t b, ch ∈ q → t ≤ fm.data.length → b ≤ fm.data.length →
      getRangeLoop fm q t b = some none
  | [], t, b, hin, _, _ => absurd hin (List.not_mem_nil _)
  | c :: rest, t, b, hin, ht, hb => by
    obtain ⟨v1, hv1, hb1⟩ := nearest_bounded hfm t c ht
    obtain ⟨v2, hv2, hb2⟩ := nearest_bounded hfm b c hb
    simp only [getRangeLoop, Option.bind_eq_bind, hv1, hv2, Option.some_bind]
    by_cases hc : c = ch
    · subst hc
      have e1 : v1 = fm.occ_map.getD c 0 := by
        have h := nearest_absent c t hch ht
        rw [hv1] at h
        exact Option.some.inj h
      have e2 : v2 = fm.occ_map.getD c 0 := by
        have h := nearest_absent c b hch hb
        rw [hv2] at h
        exact Option.some.inj h
      rw [if_pos (by omega : v1 ≥ v2)]

    · have hrest : ch ∈ rest := by
        rcases List.mem_cons.mp hin with h | h
        · exact absurd h.symm hc
        · exact h
      by_cases hge : v1 ≥ v2
      · rw [if_pos hge]
      · rw [if_neg hge]
        exact rangeLoop_absent hfm hch rest v1 v2 hrest hb1 hb2

end Helix

namespace Helix

set_option maxRecDepth 40000 in
/-- C9: for an index built from BWT data, `nearest(k, c)` at a byte `c`
absent from the data returns the occurrence-map entry for `c` — which is 0
only when that entry is missing or 0 (as for the sentinel byte 0), not in
general: on the index for `"ACA"`, `nearest(0, 66) = 3`.  The consequence
does hold: every pattern containing a byte absent from the data has count 0
and an empty search result. -/
theorem C9_absent_byte_search {d : List Nat} {fm : FMIndex}
    (hfm : FMIndex.new_from_bwt d = some fm) :
    (∀ ch k, ch ∉ fm.data → k ≤ fm.data.length →
        fm.nearest k ch = some (fm.occ_map.getD ch 0)) ∧
    (∀ ch query, ch ∉ fm.data → ch ∈ query →
        fm.count query = some 0 ∧ fm.search query = some []) ∧
    (FMIndex.new [65, 67, 65] = some fmSample ∧ (66 : Nat) ∉ fmSample.data ∧
        fmSample.nearest 0 66 = some 3) := by
  refine ⟨fun ch k hch hk => nearest_absent ch k hch hk, ?_, by decide, by decide,
    by decide⟩
  intro ch query hch hq
  have hloop := rangeLoop_absent hfm hch query.reverse 0 fm.data.length
      (List.mem_reverse.mpr hq) (Nat.zero_le _) (Nat.le_refl _)
  have hgr : fm.get_range query = some none := by
    simp only [FMIndex.get_range, Option.bind_eq_bind, hloop, Option.some_bind]
  constructor
  · simp only [FMIndex.count, Option.bind_eq_bind, hgr, Option.some_bind]
  · simp only [FMIndex.search, Option.bind_eq_bind, hgr, Option.some_bind]

set_option maxRecDepth 40000 in
/-- Witness for C9 on the index built from the BWT of `"ACA"`. -/
theorem C9_witness :
    FMIndex.new_from_bwt [65, 67, 0, 65] = some fmSample ∧
    ((∀ ch k, ch ∉ fmSample.data → k ≤ fmSample.data.length →
        fmSample.nearest k ch = some (fmSample.occ_map.getD ch 0)) ∧
     (∀ ch query, ch ∉ fmSample.data → ch ∈ query →
        fmSample.count query = some 0 ∧ fmSample.search query = some []) ∧
     (FMIndex.new [65, 67, 65] = some fmSample ∧ (66 : Nat) ∉ fmSample.data ∧
        fmSample.nearest 0 66 = some 3)) :=
  have h : FMIndex.new_from_bwt [65, 67, 0, 65] = some fmSample := by decide
  ⟨h, C9_absent_byte_search h⟩

end Helix

namespace Helix

/-- Elements fully inside the first word block are unaffected by appending. -/
theorem rawAt_append_left (l l' : List Nat) (b j : Nat) (hb : 0 < b)
    (h : (j + 1) * b ≤ 64 * l.length) :
    rawAt (l ++ l') b j = rawAt l b j := by
  simp only [rawAt]
  have hx : (j + 1) * b = j * b + b := by ring
  have hidx : j * b / 64 < l.length := by omega
  by_cases hc : b ≤ 64 - j * b % 64
  · rw [if_pos hc, if_pos hc, getD_append_left hidx]
  · have hidx1 : j * b / 64 + 1 < l.length := by omega
    rw [if_neg hc, if_neg hc, getD_append_left hidx, getD_append_left hidx1]

/-- Elements past a word-aligned prefix read from the appended list. -/
theorem rawAt_append_right (l l' : List Nat) (b u j : Nat)
    (hlen : 64 * l.length = u * b) :
    rawAt (l ++ l') b (u + j) = rawAt l' b j := by
  simp only [rawAt]
  have hx : (u + j) * b = 64 * l.length + j * b := by rw [hlen]; ring
  have hdiv : (u + j) * b / 64 = l.length + j * b / 64 := by omega
  have hmod : (u + j) * b % 64 = j * b % 64 := by omega
  rw [hdiv, hmod]
  have h1 : (l ++ l').getD (l.length + j * b / 64) 0 = l'.getD (j * b / 64) 0 := by
    rw [getD_append_right' (by omega)]
    congr 1
    omega
  have h2 : (l ++ l').getD (l.length + j * b / 64 + 1) 0
      = l'.getD (j * b / 64 + 1) 0 := by
    rw [getD_append_right' (by omega)]
    congr 1
    omega
  rw [h1, h2]

/-- Concatenating two word-aligned packed vectors of the same width yields a
well-formed vector holding the elements of the first followed by those of the
second. -/
theorem wf_concat {bv temp : BitsVec} (hwf1 : Wf bv) (hwf2 : Wf temp)
    (hb : temp.bits = bv.bits) (hl1 : bv.leftover = 0) (hl2 : temp.leftover = 0) :
    Wf { inner := bv.inner ++ temp.inner, units := bv.units + temp.units,
         bits := bv.bits, leftover := bv.leftover } ∧
    (∀ j, j < bv.units →
      rawElem { inner := bv.inner ++ temp.inner, units := bv.units + temp.units,
                bits := bv.bits, leftover := bv.leftover } j = rawElem bv j) ∧
    (∀ j, j < temp.units →
      rawElem { inner := bv.inner ++ temp.inner, units := bv.units + temp.units,
                bits := bv.bits, leftover := bv.leftover } (bv.units + j)
        = rawElem temp j) := by
  obtain ⟨hb0, hb64, hr64, hmod, hge, hlen, hwlt, hzero⟩ := hwf1
  have htot1 : 64 * bv.inner.length = bv.units * bv.bits := by omega
  obtain ⟨hb0', hb64', hr64', hmod', hge', hlen', hwlt', hzero'⟩ := hwf2
  have htot2 : 64 * temp.inner.length = temp.units * temp.bits := by omega
  have htot2' : 64 * temp.inner.length = temp.units * bv.bits := by rw [htot2, hb]
  refine ⟨?_, ?_, ?_⟩
  · refine ⟨hb0, hb64, show bv.leftover ≤ 64 by omega, ?_, ?_, ?_, ?_, ?_⟩
    · show ((bv.units + temp.units) * bv.bits + bv.leftover) % 64 = 0
      have : (bv.units + temp.units) * bv.bits
          = bv.units * bv.bits + temp.units * bv.bits := by ring
      omega
    · show 64 ≤ (bv.units + temp.units) * bv.bits + bv.leftover
      have : (bv.units + temp.units) * bv.bits
          = bv.units * bv.bits + temp.units * bv.bits := by ring
      omega
    · show (bv.inner ++ temp.inner).length
        = ((bv.units + temp.units) * bv.bits + bv.leftover) / 64
      rw [List.length_append]
      have : (bv.units + temp.units) * bv.bits
          = bv.units * bv.bits + temp.units * bv.bits := by ring
      omega
    · intro w hw
      rcases List.mem_append.mp hw with h | h
      · exact hwlt w h
      · exact hwlt' w h
    · show (bv.inner ++ temp.inner).getD ((bv.inner ++ temp.inner).length - 1) 0
        % 2 ^ bv.leftover = 0
      rw [hl1]
      exact Nat.mod_one _
  · intro j hj
    show rawAt (bv.inner ++ temp.inner) bv.bits j = rawElem bv j
    rw [rawElem]
    apply rawAt_append_left _ _ _ _ hb0
    calc (j + 1) * bv.bits ≤ bv.units * bv.bits :=
        Nat.mul_le_mul_right _ (by omega)
      _ = 64 * bv.inner.length := htot1.symm
  · intro j hj
    show rawAt (bv.inner ++ temp.inner) bv.bits (bv.units + j) = rawElem temp j
    rw [rawElem, hb]
    exact rawAt_append_right _ _ _ _ _ htot1

end Helix

namespace Helix

/-- Phase 1 of `extend_with_element`: with a positive request it either pushes
all requested elements (early return) or stops word-aligned with a positive
remainder, in both cases preserving existing elements and filling new slots
with the value. -/
theorem extendLoop1_spec (v : Nat) :
    ∀ r bv, Wf bv → v < 2 ^ bv.bits → 0 < r →
      (∃ done, BitsVec.extendLoop1 v r bv = some (Sum.inl done) ∧ Wf done ∧
          done.bits = bv.bits ∧ done.units = bv.units + r ∧
          (∀ j, j < bv.units → rawElem done j = rawElem bv j) ∧
          (∀ j, bv.units ≤ j → j < done.units → rawElem done j = v)) ∨
      (∃ bv2 r2, BitsVec.extendLoop1 v r bv = some (Sum.inr (bv2, r2)) ∧ Wf bv2 ∧
          bv2.bits = bv.bits ∧ bv2.leftover = 0 ∧ 0 < r2 ∧
          bv.units ≤ bv2.units ∧ bv2.units + r2 = bv.units + r ∧
          (∀ j, j < bv.units → rawElem bv2 j = rawElem bv j) ∧
          (∀ j, bv.units ≤ j → j < bv2.units → rawElem bv2 j = v)) := by
  intro r
  induction r with
  | zero => intro bv _ _ h; exact absurd h (by omega)
  | succ r ih =>
    intro bv hwf hv _
    by_cases hl : bv.leftover > 0
    · obtain ⟨bv', hpush, hwf', hu, hb, hlo, hframe, hlast⟩ := push_spec hwf hv
      by_cases hr : r = 0
      · subst hr
        refine Or.inl ⟨bv', ?_, hwf', hb, by omega, hframe, ?_⟩
        · simp only [BitsVec.extendLoop1, if_pos hl, hpush,
            eq_self_iff_true, if_true]
        · intro j hj1 hj2
          rw [(by omega : j = bv.units), hlast]
      · have hv' : v < 2 ^ bv'.bits := by rw [hb]; exact hv
        rcases ih bv' hwf' hv' (by omega) with
          ⟨done, heq, hwfd, hbd, hud, hfr, hnew⟩ |
          ⟨bv2, r2, heq, hwf2, hb2, hl2, hr2, hule, hu2, hfr, hnew⟩
        · refine Or.inl ⟨done, ?_, hwfd, hbd.trans hb, by omega, ?_, ?_⟩
          · simp only [BitsVec.extendLoop1, if_pos hl, hpush, if_neg hr]
            exact heq
          · intro j hj
            rw [hfr j (by omega), hframe j hj]
          · intro j hj1 hj2
            by_cases hj' : j < bv'.units
            · rw [hfr j hj', (by omega : j = bv.units), hlast]
            · exact hnew j (by omega) hj2
        · refine Or.inr ⟨bv2, r2, ?_, hwf2, hb2.trans hb, hl2, hr2, by omega, by omega, ?_, ?_⟩
          · simp only [BitsVec.extendLoop1, if_pos hl, hpush, if_neg hr]
            exact heq
          · intro j hj
            rw [hfr j (by omega), hframe j hj]
          · intro j hj1 hj2
            by_cases hj' : j < bv'.units
            · rw [hfr j hj', (by omega : j = bv.units), hlast]
            · exact hnew j (by omega) hj2
    · refine Or.inr ⟨bv, r + 1, ?_, hwf, rfl, by omega, by omega, Nat.le_refl _,
        by omega, fun j _ => rfl, fun j hj1 hj2 => absurd hj2 (by omega)⟩
      simp only [BitsVec.extendLoop1, if_neg hl]

end Helix

namespace Helix

/-- Phase 2 of `extend_with_element`: a well-formed temporary with a strictly
sub-word leftover aligns itself (leftover 0) within the fuel bound, filling
every new slot with the value.  The alignment certificate is any `m` with
`64 ∣ (units + m) · bits`. -/
theorem extendLoop2_spec (v b : Nat) (hb0 : 0 < b) :
    ∀ m fuel remain temp, m < fuel → Wf temp → temp.bits = b → v < 2 ^ b →
      temp.leftover < 64 → 0 < remain → 64 ∣ (temp.units + m) * b →
      ∃ temp', BitsVec.extendLoop2 v fuel remain temp = some temp' ∧ Wf temp' ∧
        temp'.bits = b ∧ temp'.leftover = 0 ∧ temp.units ≤ temp'.units ∧
        (∀ j, j < temp.units → rawElem temp' j = rawElem temp j) ∧
        (∀ j, temp.units ≤ j → j < temp'.units → rawElem temp' j = v) := by
  intro m
  induction m with
  | zero =>
    intro fuel remain temp hfuel hwf hbits hv hl64 hrem hdvd
    obtain ⟨f, rfl⟩ : ∃ f, fuel = f + 1 := ⟨fuel - 1, by omega⟩
    have hl0 : temp.leftover = 0 := by
      obtain ⟨hb0', hb64, hr64, hmod, hge, hlen, hwlt, hzero⟩ := hwf
      obtain ⟨q, hq⟩ := hdvd
      rw [Nat.add_zero] at hq
      rw [hbits] at hmod
      omega
    refine ⟨temp, ?_, hwf, hbits, hl0, Nat.le_refl _, fun j _ => rfl,
      fun j hj1 hj2 => absurd hj2 (by omega)⟩
    rw [BitsVec.extendLoop2, if_neg (by omega)]
  | succ m ih =>
    intro fuel remain temp hfuel hwf hbits hv hl64 hrem hdvd
    obtain ⟨f, rfl⟩ : ∃ f, fuel = f + 1 := ⟨fuel - 1, by omega⟩
    by_cases hl : temp.leftover > 0
    · obtain ⟨temp2, hpush, hwf2, hu, hb, hlo, hframe, hlast⟩ :=
        push_spec hwf (by rw [hbits]; exact hv)
      have hl64' : temp2.leftover < 64 := by
        rw [hlo]
        obtain ⟨hb0', hb64, -⟩ := hwf
        rw [hbits] at hb0' hb64
        by_cases hc : temp.leftover < temp.bits
        · rw [if_pos hc]
          rw [hbits]
          omega
        · rw [if_neg hc]
          rw [hbits] at hc
          omega
      obtain ⟨temp', heq, hwf', hb', hl', hle, hfr, hnew⟩ :=
        ih f remain temp2 (by omega) hwf2 (hb.trans hbits) hv hl64' hrem
          (by rw [hu, (by omega : temp.units + 1 + m = temp.units + (m + 1))]; exact hdvd)
      refine ⟨temp', ?_, hwf', hb', hl', by omega, ?_, ?_⟩
      · rw [BitsVec.extendLoop2, if_pos ⟨hl, hrem⟩, hpush]
        exact heq
      · intro j hj
        rw [hfr j (by omega), hframe j hj]
      · intro j hj1 hj2
        by_cases hj' : j < temp2.units
        · rw [hfr j hj', (by omega : j = temp.units), hlast]
        · exact hnew j (by omega) hj2
    · have hl0 : temp.leftover = 0 := by omega
      refine ⟨temp, ?_, hwf, hbits, hl0, Nat.le_refl _, fun j _ => rfl,
        fun j hj1 hj2 => absurd hj2 (by omega)⟩
      rw [BitsVec.extendLoop2, if_neg (by omega)]

end Helix

namespace Helix

/-- Phase 3 of `extend_with_element`: block-append the aligned temporary while
at least a full block is requested.  Existing elements persist, appended slots
carry the fill value, and the unprocessed remainder drops below the block
size. -/
theorem extendLoop3_spec (v b : Nat) :
    ∀ fuel bv temp remain, remain < fuel → Wf bv → Wf temp →
      bv.bits = b → temp.bits = b → bv.leftover = 0 → temp.leftover = 0 →
      0 < temp.units →
      (∀ j, j < temp.units → rawElem temp j = v) →
      ∃ bv3 r3, BitsVec.extendLoop3 fuel bv temp remain = some (bv3, r3) ∧
        Wf bv3 ∧ bv3.bits = b ∧ bv3.leftover = 0 ∧ r3 < temp.units ∧
        bv.units ≤ bv3.units ∧ bv3.units + r3 = bv.units + remain ∧
        (∀ j, j < bv.units → rawElem bv3 j = rawElem bv j) ∧
        (∀ j, bv.units ≤ j → j < bv3.units → rawElem bv3 j = v) := by
  intro fuel
  induction fuel with
  | zero => intro bv temp remain h; exact absurd h (by omega)
  | succ f ih =>
    intro bv temp remain hfuel hwf1 hwf2 hb1 hb2 hl1 hl2 htu hval
    by_cases hge : remain ≥ temp.units
    · have hbeq : temp.bits = bv.bits := by rw [hb1, hb2]
      obtain ⟨hwfc, hfr, hnewc⟩ := wf_concat hwf1 hwf2 hbeq hl1 hl2
      obtain ⟨bv3, r3, heq, hwf3, hb3, hl3, hr3, hule3, hu3, hfr3, hnew3⟩ :=
        ih { inner := bv.inner ++ temp.inner, units := bv.units + temp.units,
             bits := bv.bits, leftover := bv.leftover }
          temp (remain - temp.units) (by omega) hwfc hwf2 hb1 hb2 hl1 hl2 htu hval
      have hcu : { inner := bv.inner ++ temp.inner, units := bv.units + temp.units,
                   bits := bv.bits, leftover := bv.leftover : BitsVec }.units
          = bv.units + temp.units := rfl
      refine ⟨bv3, r3, ?_, hwf3, hb3, hl3, hr3, by omega, ?_, ?_, ?_⟩
      · rw [BitsVec.extendLoop3, if_pos hge]
        exact heq
      · show bv3.units + r3 = bv.units + remain
        omega
      · intro j hj
        rw [hfr3 j (by show j < bv.units + temp.units; omega), hfr j hj]
      · intro j hj1 hj2
        by_cases hj' : j < bv.units + temp.units
        · rw [hfr3 j hj']
          have hje : j = bv.units + (j - bv.units) := by omega
          rw [hje, hnewc (j - bv.units) (by omega)]
          exact hval _ (by omega)
        · exact hnew3 j (by show bv.units + temp.units ≤ j; omega) hj2
    · refine ⟨bv, remain, ?_, hwf1, hb1, hl1, by omega, Nat.le_refl _, rfl,
        fun j _ => rfl, fun j hj1 hj2 => absurd hj2 (by omega)⟩
      rw [BitsVec.extendLoop3, if_neg hge]

/-- Pushing the same value `n` times: the contents keep the old elements and
append `n` copies of the value. -/
theorem foldPush_spec (v : Nat) :
    ∀ (l : List Nat) bv, Wf bv → v < 2 ^ bv.bits →
      ∃ bv', l.foldlM (fun b _ => b.push v) bv = some bv' ∧ Wf bv' ∧
        bv'.bits = bv.bits ∧ bv'.units = bv.units + l.length ∧
        (∀ j, j < bv.units → rawElem bv' j = rawElem bv j) ∧
        (∀ j, bv.units ≤ j → j < bv'.units → rawElem bv' j = v)
  | [], bv, hwf, hv =>
    ⟨bv, rfl, hwf, rfl, rfl, fun j _ => rfl,
     fun j hj1 hj2 => absurd hj2 (by omega)⟩
  | a :: l, bv, hwf, hv => by
    obtain ⟨bv', hpush, hwf', hu, hb, hlo, hframe, hlast⟩ := push_spec hwf hv
    obtain ⟨bv2, heq, hwf2, hb2, hu2, hfr2, hnew2⟩ :=
      foldPush_spec v l bv' hwf' (by rw [hb]; exact hv)
    refine ⟨bv2, ?_, hwf2, hb2.trans hb, ?_, ?_, ?_⟩
    · rw [List.foldlM_cons, hpush]
      exact heq
    · rw [hu2, hu, List.length_cons]
      omega
    · intro j hj
      rw [hfr2 j (by omega), hframe j hj]
    · intro j hj1 hj2
      by_cases hj' : j < bv'.units
      · rw [hfr2 j hj', (by omega : j = bv.units), hlast]
      · exact hnew2 j (by omega) hj2

end Helix

namespace Helix

/-- The empty vector of a valid width is well-formed. -/
theorem wf_new {b : Nat} (hb0 : 0 < b) (hb64 : b < 64) : Wf (freshVec b) := by
  refine ⟨hb0, hb64, ?_, ?_, ?_, ?_, ?_, ?_⟩
  · show W ≤ 64
    decide
  · show (0 * b + W) % 64 = 0
    simp [W]
  · show 64 ≤ 0 * b + W
    simp [W]
  · show ([0] : List Nat).length = (0 * b + W) / 64
    simp [W]
  · intro w hw
    simp only [freshVec, List.mem_singleton] at hw
    rw [hw]
    positivity
  · show ([0] : List Nat).getD (([0] : List Nat).length - 1) 0 % 2 ^ W = 0
    simp

/-- `BitsVec::new` at a valid width returns the fresh vector. -/
theorem new_eq_fresh {b : Nat} (hb64 : b < 64) :
    BitsVec.new b = some (freshVec b) := by
  rw [BitsVec.new, if_pos (show b < W from hb64)]
  rfl

end Helix

namespace Helix

/-- C6: `extend_with_element new_len v` on a well-formed vector fails exactly
when `new_len ≤ len` — extending to the current length is rejected, contrary
to the claim's `new_len < len` — and for `new_len > len` it grows the vector
to `new_len` elements, preserving the existing ones and filling every added
slot with `v`. -/
theorem C6_extend_with_element {bv : BitsVec} (hwf : Wf bv) {v : Nat}
    (hv : v < 2 ^ bv.bits) (n : Nat) :
    (n ≤ bv.units → bv.extend_with_element n v = none) ∧
    (bv.units < n → ∃ bv', bv.extend_with_element n v = some bv' ∧ Wf bv' ∧
        bv'.units = n ∧ bv'.bits = bv.bits ∧
        (∀ j, j < bv.units → bv'.get j = bv.get j) ∧
        (∀ j, bv.units ≤ j → j < n → bv'.get j = some v)) := by
  have hb0 : 0 < bv.bits := hwf.1
  have hb64 : bv.bits < 64 := hwf.2.1
  constructor
  · intro hn
    rw [BitsVec.extend_with_element, if_pos (by omega)]
  · intro hn
    rcases extendLoop1_spec v (n - bv.units) bv hwf hv (by omega) with
      ⟨done, heq1, hwfd, hbd, hud, hfrd, hnewd⟩ |
      ⟨bv2, r2, heq1, hwf2, hb2, hl2, hr2pos, hule2, hu2, hfr2, hnew2⟩
    · refine ⟨done, ?_, hwfd, by omega, hbd, ?_, ?_⟩
      · rw [BitsVec.extend_with_element, if_neg (by omega)]
        simp only [heq1]
      · intro j hj
        rw [get_eq_rawElem hwfd (by omega), get_eq_rawElem hwf hj, hfrd j hj]
      · intro j hj1 hj2
        rw [get_eq_rawElem hwfd (by omega), hnewd j hj1 (by omega)]
    · have hwf0 : Wf (freshVec bv2.bits) := wf_new (by omega) (by omega)
      obtain ⟨temp1, hpush1, hwft1, hu1, hbt1, hlo1, hfr1, hlast1⟩ :=
        push_spec hwf0 (show v < 2 ^ (freshVec bv2.bits).bits by
          show v < 2 ^ bv2.bits; rw [hb2]; exact hv)
      have hu1' : temp1.units = 1 := by rw [hu1]; rfl
      have hbits1 : temp1.bits = bv.bits := hbt1.trans hb2
      have hlo1' : temp1.leftover = 64 - bv.bits := by
        rw [hlo1]
        rw [if_neg (show ¬ (freshVec bv2.bits).leftover < (freshVec bv2.bits).bits by
          show ¬ W < bv2.bits
          simp only [W]
          omega)]
        show W - bv2.bits = 64 - bv.bits
        simp only [W]
        omega
      have hl64' : temp1.leftover < 64 := by rw [hlo1']; omega
      have hdvd : 64 ∣ (temp1.units + 63) * bv.bits := by
        have h64 : temp1.units + 63 = 64 := by omega
        rw [h64]
        exact ⟨bv.bits, rfl⟩
      obtain ⟨temp, heq2, hwft, hbt, hlt, hut, hfrt, hnewt⟩ :=
        extendLoop2_spec v bv.bits hb0 63 100 r2 temp1 (by omega) hwft1 hbits1 hv
          hl64' hr2pos hdvd
      have hvall : ∀ j, j < temp.units → rawElem temp j = v := by
        intro j hj
        by_cases hj1 : j < temp1.units
        · rw [hfrt j hj1, (by omega : j = 0)]
          exact hlast1
        · exact hnewt j (by omega) hj
      obtain ⟨bv3, r3, heq3, hwf3, hb3, hl3, hr3, hule3, hu3, hfr3, hnew3⟩ :=
        extendLoop3_spec v bv.bits (r2 + 1) bv2 temp r2 (by omega) hwf2 hwft hb2
          hbt hl2 hlt (by omega) hvall
      obtain ⟨bvF, heqF, hwfF, hbF, huF, hfrF, hnewF⟩ :=
        foldPush_spec v (List.range r3) bv3 hwf3 (by rw [hb3]; exact hv)
      rw [List.length_range] at huF
      have hun : bvF.units = n := by omega
      refine ⟨bvF, ?_, hwfF, hun, hbF.trans hb3, ?_, ?_⟩
      · rw [BitsVec.extend_with_element, if_neg (by omega)]
        simp only [heq1, new_eq_fresh (show bv2.bits < 64 by omega), hpush1, heq2,
          if_neg (show ¬ r2 = 0 by omega), heq3]
        exact heqF
      · intro j hj
        rw [get_eq_rawElem hwfF (by omega), get_eq_rawElem hwf hj,
          hfrF j (by omega), hfr3 j (by omega), hfr2 j hj]
      · intro j hj1 hj2
        rw [get_eq_rawElem hwfF (by omega)]
        by_cases hc1 : j < bv2.units
        · rw [hfrF j (by omega), hfr3 j hc1, hnew2 j hj1 hc1]
        · by_cases hc2 : j < bv3.units
          · rw [hfrF j (by omega), hnew3 j (by omega) hc2]
          · rw [hnewF j (by omega) (by omega)]

/-- Witness for C6 at the concrete vector `[5, 9, 3]` packed with width 4,
extended to length 6 with the value 7. -/
theorem C6_witness :
    Wf sampleVec ∧ 7 < 2 ^ sampleVec.bits ∧
    ((6 ≤ sampleVec.units → sampleVec.extend_with_element 6 7 = none) ∧
     (sampleVec.units < 6 → ∃ bv', sampleVec.extend_with_element 6 7 = some bv' ∧
        Wf bv' ∧ bv'.units = 6 ∧ bv'.bits = sampleVec.bits ∧
        (∀ j, j < sampleVec.units → bv'.get j = sampleVec.get j) ∧
        (∀ j, sampleVec.units ≤ j → j < 6 → bv'.get j = some 7))) :=
  ⟨by unfold Wf; decide, by decide,
   C6_extend_with_element (by unfold Wf; decide) (by decide) 6⟩

end Helix

namespace Helix

/-- Counterexample to C6's failure condition: extending a vector of length 3
to the same length 3 panics (models as `none`), though the claim says only
`new_len < len` fails. -/
theorem C6_counterexample :
    sampleVec.units = 3 ∧ sampleVec.extend_with_element 3 7 = none := by
  refine ⟨rfl, ?_⟩
  rw [BitsVec.extend_with_element, if_pos (by decide)]

/-- Counterexample to C7's width condition: `new 0` succeeds with an empty
width-0 vector, though the claim says every `w ∉ [1, W)` fails. -/
theorem C7_counterexample : BitsVec.new 0 = some (freshVec 0) := rfl

/-- Counterexample to C9: on the index built for `"ACA"`, the byte 66 never
occurs in the BWT data, yet `nearest(0, 66)` is 3, not 0. -/
theorem C9_counterexample :
    (66 : Nat) ∉ fmSample.data ∧ fmSample.nearest 0 66 = some 3 ∧
    fmSample.nearest 0 66 ≠ some 0 := by
  refine ⟨by decide, by decide, by decide⟩

end Helix
